import Mathlib

/-!
Shallow embedding of the LSM-tree storage engine in `src/lsmtree.py` of the
cauchy repository, together with theorems settling the frozen claims about it.

Modelling conventions, chosen to mirror the Python source exactly:

* Keys are Python strings compared lexicographically by code point.  The spec
  itself describes keys as byte sequences with byte-lexicographic order, and
  UTF-8 preserves code-point order, so keys are modeled as their UTF-8 byte
  sequences (`List Nat`, each entry a byte).  String values are modeled the
  same way.
* Floats are carried as their IEEE-754 64-bit bit patterns (a `Nat`), which is
  exactly the information `struct.pack(">d")` writes and `struct.unpack(">d")`
  reads back; the engine never computes with float values, it only stores,
  compares against the tombstone string, and serializes them.
* Segment files are byte lists (`List Nat`); every `struct` pack/unpack, file
  offset, seek and in-place write is modeled at the byte level.
* Python exceptions (`KeyError`, `IndexError`, `TypeError`, `struct.error`)
  are modeled with `Except` / an error component; raising leaves previously
  assigned attributes as they were, which the models reproduce by returning
  the unchanged state alongside the error.
* The memtable flush threshold is measured in Python with `pympler.asizeof`,
  an external heap-size heuristic (the spec calls the estimator
  engine-defined); flushing is therefore modeled as an explicit operation
  that may happen after any write, which is also how the claims quantify
  over "however many flushes occurred".
-/

/-- A key: the UTF-8 bytes of a Python string key.  Python compares `str`
lexicographically by code point and UTF-8 byte order agrees with code-point
order, so list-lexicographic order on the bytes models Python `<` on keys. -/
abbrev Key := List Nat

/-- Python `<` on strings, modeled on UTF-8 byte lists: lexicographic, with a
proper prefix ordered before its extensions. -/
def keyLt : Key → Key → Bool
  | [], [] => false
  | [], _ :: _ => true
  | _ :: _, [] => false
  | a :: as, b :: bs => a < b || (a == b && keyLt as bs)

/-- Python `<=` on strings. -/
def keyLe (a b : Key) : Bool := keyLt a b || a == b

/-- A value as held by the engine: Python `int`, `float` or `str`.
Floats are represented by their IEEE-754 binary64 bit pattern and strings by
their UTF-8 bytes (see the header comment). -/
inductive Value where
  | int (n : Int)
  | float (bits : Nat)
  | str (s : List Nat)
deriving DecidableEq

/-- The UTF-8 bytes of the Python string literal used as the deletion
sentinel throughout `lsmtree.py`: the nine characters of that word. -/
def tombstoneBytes : List Nat := [116, 111, 109, 98, 115, 116, 111, 110, 101]

/-- The tombstone sentinel value: the Python string the source compares
against with `== / !=`.  Python equality between an `int`/`float` and a `str`
is always `False`, which `Value` equality reproduces (distinct constructors
are never equal). -/
def tombstoneSentinel : Value := .str tombstoneBytes

/-- Python truthiness of a value: `0`, `0.0`/`-0.0` and the empty string are
falsy, everything else truthy.  The two zero-float bit patterns are `0` and
`2^63` (the sign bit). -/
def Value.truthy : Value → Bool
  | .int n => n != 0
  | .float bits => bits != 0 && bits != 2 ^ 63
  | .str s => s != []

/-- The Python expression `a or b` applied to two `dict.get` results
(absent = `None`).  `None or b` and `falsy or b` both yield `b`. -/
def pyOr (a b : Option Value) : Option Value :=
  match a with
  | some v => if v.truthy then some v else b
  | none => b

/-- A value the serializer supports without raising `struct.error`:
`struct.pack(">i", n)` needs a signed 32-bit integer, a float pattern fits in
64 bits, and the `">i"` length prefix of a string needs its byte length below
`2^31` (we use the slightly stronger `2^32` bound nowhere; `2^31` keeps
`struct` happy). -/
def Value.supported : Value → Prop
  | .int n => -(2 ^ 31) ≤ n ∧ n < 2 ^ 31
  | .float bits => bits < 2 ^ 64
  | .str s => s.length < 2 ^ 31

instance : DecidablePred Value.supported := fun v =>
  match v with
  | .int n => inferInstanceAs (Decidable (-(2 ^ 31) ≤ n ∧ n < 2 ^ 31))
  | .float bits => inferInstanceAs (Decidable (bits < 2 ^ 64))
  | .str s => inferInstanceAs (Decidable (s.length < 2 ^ 31))

/-! ## Big-endian byte codec (the `struct` module with format `>`) -/

/-- The four big-endian bytes of `n % 2^32`; what `struct.pack` emits for a
32-bit field. -/
def be32 (n : Nat) : List Nat :=
  [n / 2 ^ 24 % 256, n / 2 ^ 16 % 256, n / 2 ^ 8 % 256, n % 256]

/-- Read four big-endian bytes as an unsigned 32-bit number. -/
def debe32 (bs : List Nat) : Nat :=
  match bs with
  | [b0, b1, b2, b3] => b0 * 2 ^ 24 + b1 * 2 ^ 16 + b2 * 2 ^ 8 + b3
  | _ => 0

/-- `struct.pack(">i", n)`: two's-complement big-endian encoding of a signed
32-bit integer (callers must keep `n` in range, otherwise Python raises). -/
def be32i (n : Int) : List Nat := be32 (n % 2 ^ 32).toNat

/-- `struct.unpack(">i", bs)`: decode four bytes as a signed 32-bit value. -/
def debe32i (bs : List Nat) : Int :=
  let m := debe32 bs
  if m < 2 ^ 31 then (m : Int) else (m : Int) - 2 ^ 32

/-- The eight big-endian bytes of a 64-bit pattern (`struct.pack(">d")` on
the float with this bit pattern). -/
def be64 (n : Nat) : List Nat :=
  [n / 2 ^ 56 % 256, n / 2 ^ 48 % 256, n / 2 ^ 40 % 256, n / 2 ^ 32 % 256,
   n / 2 ^ 24 % 256, n / 2 ^ 16 % 256, n / 2 ^ 8 % 256, n % 256]

/-- Read eight big-endian bytes as a 64-bit pattern. -/
def debe64 (bs : List Nat) : Nat :=
  match bs with
  | [b0, b1, b2, b3, b4, b5, b6, b7] =>
      b0 * 2 ^ 56 + b1 * 2 ^ 48 + b2 * 2 ^ 40 + b3 * 2 ^ 32 +
      b4 * 2 ^ 24 + b5 * 2 ^ 16 + b6 * 2 ^ 8 + b7
  | _ => 0

/-! ## The record codec (§4.1): `_generate_struct_format_string`,
`struct.pack` in `_write_dict_to_data_segment`, `_read_item_from_disk` -/

/-- One decoded on-disk record: key bytes, value, tombstone flag. -/
structure Rec where
  key : Key
  val : Value
  tomb : Bool
deriving DecidableEq

/-- The byte characters `'i'`, `'d'`, `'s'` used as the type tag. -/
def typeCharInt : Nat := 105

def typeCharFloat : Nat := 100

def typeCharStr : Nat := 115

/-- The bytes `struct.pack` produces for one record, following
`_generate_struct_format_string`: key length (`>i`), key bytes, tombstone
(`?`, one byte), type tag (`c`), then the payload (`i`, `d`, or `i` length
prefix plus string bytes).  `>` means big-endian with no padding. -/
def encodeRecord (k : Key) (v : Value) (tomb : Bool) : List Nat :=
  be32 k.length ++ k ++ [if tomb then 1 else 0] ++
  (match v with
   | .int n => typeCharInt :: be32i n
   | .float bits => typeCharFloat :: be64 bits
   | .str s => typeCharStr :: (be32 s.length ++ s))

/-- `struct.calcsize` of the format string `_generate_struct_format_string`
builds: `>i{k}s?ci` is `4+k+1+1+4`, `>i{k}s?cd` is `4+k+1+1+8`, and
`>i{k}s?ci{v}s` is `4+k+1+1+4+v`. -/
def calcsize (k : Key) (v : Value) : Nat :=
  match v with
  | .int _ => 4 + k.length + 1 + 1 + 4
  | .float _ => 4 + k.length + 1 + 1 + 8
  | .str s => 4 + k.length + 1 + 1 + 4 + s.length

/-- Error kinds for modeled Python exceptions. -/
inductive Err where
  /-- `KeyError`, raised by `delete` on a missing key. -/
  | keyNotFound
  /-- `IndexError`, raised by `_find_block_range_for_key` on an empty index. -/
  | indexError
  /-- `TypeError`, raised by `_read_item_from_disk` on an unknown type tag. -/
  | typeError
  /-- `struct.error`, raised by `struct.unpack` on a short read. -/
  | structError
deriving DecidableEq

instance {ε α : Type} [DecidableEq ε] [DecidableEq α] :
    DecidableEq (Except ε α) := fun x y =>
  match x, y with
  | .ok a, .ok b =>
    if h : a = b then .isTrue (by rw [h])
    else .isFalse (by intro H; cases H; exact h rfl)
  | .error a, .error b =>
    if h : a = b then .isTrue (by rw [h])
    else .isFalse (by intro H; cases H; exact h rfl)
  | .ok _, .error _ => .isFalse (by intro H; cases H)
  | .error _, .ok _ => .isFalse (by intro H; cases H)

/-- `file.read(n)` at position `off` followed by `struct.unpack`: yields the
`n` bytes when they exist, otherwise the unpack raises (`none`). -/
def readBytes (file : List Nat) (off n : Nat) : Option (List Nat) :=
  if off + n ≤ file.length then some ((file.drop off).take n) else none

/-- `_read_item_from_disk` with the file pointer at `off`: decode one record,
returning it together with the file position after it (`f.tell()`).
A short read models `struct.error`; an unknown type tag models the
`TypeError` the source raises.  (The source unpacks the key length with the
signed `">i"`; key lengths of real segments are far below `2^31`, where the
signed and unsigned readings agree.) -/
def LSMTree.read_item_from_disk (file : List Nat) (off : Nat) :
    Except Err (Rec × Nat) :=
  match readBytes file off 4 with
  | none => .error .structError
  | some lenBytes =>
    let key_length := debe32 lenBytes
    match readBytes file (off + 4) key_length with
    | none => .error .structError
    | some keyBytes =>
      match readBytes file (off + 4 + key_length) 1 with
      | none => .error .structError
      | some tombBytes =>
        match readBytes file (off + 4 + key_length + 1) 1 with
        | none => .error .structError
        | some typeBytes =>
          let isTomb : Bool := tombBytes != [0]
          if typeBytes = [typeCharStr] then
            match readBytes file (off + 4 + key_length + 2) 4 with
            | none => .error .structError
            | some vlenBytes =>
              let value_length := debe32 vlenBytes
              match readBytes file (off + 4 + key_length + 6) value_length with
              | none => .error .structError
              | some valBytes =>
                .ok (⟨keyBytes, .str valBytes, isTomb⟩,
                     off + 4 + key_length + 6 + value_length)
          else if typeBytes = [typeCharInt] then
            match readBytes file (off + 4 + key_length + 2) 4 with
            | none => .error .structError
            | some valBytes =>
              .ok (⟨keyBytes, .int (debe32i valBytes), isTomb⟩,
                   off + 4 + key_length + 6)
          else if typeBytes = [typeCharFloat] then
            match readBytes file (off + 4 + key_length + 2) 8 with
            | none => .error .structError
            | some valBytes =>
              .ok (⟨keyBytes, .float (debe64 valBytes), isTomb⟩,
                   off + 4 + key_length + 10)
          else
            .error .typeError

/-! ## Sorted dictionaries (`sortedcontainers.SortedDict`) as sorted
association lists -/

/-- `dict.get(k)` / `SortedDict.get(k)`: value of the first (only) binding. -/
def assocGet {α : Type} (m : List (Key × α)) (k : Key) : Option α :=
  match m with
  | [] => none
  | (k', v) :: rest => if k == k' then some v else assocGet rest k

/-- `k in dict`. -/
def assocContains {α : Type} (m : List (Key × α)) (k : Key) : Bool :=
  (assocGet m k).isSome

/-- `dict[k] = v` on a sorted dict: replace an existing binding in place or
insert at the ordered position. -/
def assocSet {α : Type} (m : List (Key × α)) (k : Key) (v : α) :
    List (Key × α) :=
  match m with
  | [] => [(k, v)]
  | (k', v') :: rest =>
    if keyLt k k' then (k, v) :: (k', v') :: rest
    else if k == k' then (k, v) :: rest
    else (k', v') :: assocSet rest k v

/-- `dict.pop(k)`: drop the binding for `k` (callers guard `k in dict`). -/
def assocPop {α : Type} (m : List (Key × α)) (k : Key) : List (Key × α) :=
  match m with
  | [] => []
  | (k', v') :: rest =>
    if k == k' then rest else (k', v') :: assocPop rest k

/-- `dict[k] = v` on a plain `dict` (the sparse-index dict in the writer):
overwrite in place or append, preserving insertion order. -/
def dictSet {α : Type} (m : List (Key × α)) (k : Key) (v : α) :
    List (Key × α) :=
  match m with
  | [] => [(k, v)]
  | (k', v') :: rest =>
    if k == k' then (k, v) :: rest else (k', v') :: dictSet rest k v

/-- The engine memtable: an ordered mapping from key to value. -/
abbrev Memtable := List (Key × Value)

/-- A data segment as held in `_data_segments`: the segment file's bytes
paired with its sparse index (`(name, offsets)` in the source; the pathname
`storage/segment_<id>` only names the file whose bytes we carry directly). -/
abbrev Segment := List Nat × List (Key × Nat)

/-! ## Segment reader (§4.3): `_find_block_range_for_key`,
`_find_item_in_segment`, `_is_EOF` -/

/-- `bisect.bisect_left(keys, k)`: on the sorted key lists the engine builds,
the insertion point equals the number of leading keys strictly below `k`,
which this linear recursion computes. -/
def bisectLeft (ks : List Key) (k : Key) : Nat :=
  match ks with
  | [] => 0
  | k' :: rest => if keyLt k' k then bisectLeft rest k + 1 else 0

/-- `_find_block_range_for_key`.  Returns `none` for the uncaught
`IndexError` that `block_offset_keys[position]` raises on an empty index
(`position = 0` and no element `0`).  Otherwise mirrors the source:
`lower = keys[position-1]` when `1 <= position <= len`, else `keys[0]` when
`position == 0` (the final `None` arm is unreachable but kept), and
`upper = keys[position]` unless `position == len`. -/
def LSMTree.find_block_range_for_key (key : Key)
    (block_offsets : List (Key × Nat)) :
    Option (Option Key × Option Key) :=
  let block_offset_keys := block_offsets.map Prod.fst
  let position := bisectLeft block_offset_keys key
  let lowerRaised : Option (Option Key) :=
    if 1 ≤ position ∧ position ≤ block_offset_keys.length then
      some (block_offset_keys.get? (position - 1))
    else if position = 0 then
      match block_offset_keys.get? 0 with
      | some k0 => some (some k0)
      | none => none
    else
      some none
  match lowerRaised with
  | none => none
  | some lower_bound =>
    let upper_bound :=
      if position ≠ block_offset_keys.length then block_offset_keys.get? position
      else none
    some (lower_bound, upper_bound)

/-- The loop's stop test `upper_bound is not None and upper_bound < current_key`. -/
def upperStop (upper_bound : Option Key) (current_key : Key) : Bool :=
  match upper_bound with
  | some u => keyLt u current_key
  | none => false

/-- The body of the `while not self._is_EOF(f)` scan in
`_find_item_in_segment`, reading records from byte offset `off`.  After each
record the source records `current_block_offset = f.tell()` and the loop
condition checks end-of-file at that same position, so the loop stops cleanly
exactly when a record ends at the end of the file.  `fuel` only bounds the
recursion; callers pass `file.length + 1`, which `scan_spec` below shows is
never exhausted (every record is at least 10 bytes long). -/
def LSMTree.find_item_scan_loop (fuel : Nat) (file : List Nat) (key : Key)
    (upper_bound : Option Key) (off : Nat) :
    Except Err (Option (Value × Nat)) :=
  match fuel with
  | 0 => .error .structError
  | fuel + 1 =>
    match LSMTree.read_item_from_disk file off with
    | .error e => .error e
    | .ok (r, next) =>
      if r.key == key && !r.tomb then .ok (some (r.val, off))
      else if upperStop upper_bound r.key then .ok none
      else if next < file.length then
        LSMTree.find_item_scan_loop fuel file key upper_bound next
      else .ok none

/-- `_find_item_in_segment`'s fallback path: compute the bounding block
range, return `None` if the lower bound is absent, otherwise scan from the
lower bound's block offset.  The first `_is_EOF` check happens on a freshly
opened file (pointer at byte 0), so an empty file returns `None` before any
read. -/
def LSMTree.find_item_scan (key : Key) (file : List Nat)
    (block_offsets : List (Key × Nat)) : Except Err (Option (Value × Nat)) :=
  match LSMTree.find_block_range_for_key key block_offsets with
  | none => .error .indexError
  | some (none, _) => .ok none
  | some (some lower_bound, upper_bound) =>
    match assocGet block_offsets lower_bound with
    | none => .error .keyNotFound
    | some current_block_offset =>
      if file.length = 0 then .ok none
      else LSMTree.find_item_scan_loop (file.length + 1) file key upper_bound
             current_block_offset

/-- `_find_item_in_segment`.  If the key is an exact sparse-index entry, seek
to its offset and decode one record; a non-tombstoned hit returns
`(value, offset)`, a tombstoned one falls through to the block-range scan,
exactly as the source's `if key in block_offsets:` block does. -/
def LSMTree.find_item_in_segment (key : Key) (segment : Segment) :
    Except Err (Option (Value × Nat)) :=
  let (file, block_offsets) := segment
  match assocGet block_offsets key with
  | some off =>
    match LSMTree.read_item_from_disk file off with
    | .error e => .error e
    | .ok (r, _) =>
      if !r.tomb then .ok (some (r.val, off))
      else LSMTree.find_item_scan key file block_offsets
  | none => LSMTree.find_item_scan key file block_offsets

/-! ## Segment writer (§4.2): `_write_dict_to_data_segment` -/

/-- One iteration of the writer's `for key, value in dict_to_write.items()`
loop.  State: bytes written so far (`f.tell()` is its length), the offsets
dict, `current_block_size`, and the `is_first_block` flag.  Entries whose
value is the tombstone sentinel are skipped entirely. -/
def LSMTree.write_step (sstable_block_size : Nat)
    (st : List Nat × List (Key × Nat) × Nat × Bool) (e : Key × Value) :
    List Nat × List (Key × Nat) × Nat × Bool :=
  let (file, offsets, current_block_size, is_first_block) := st
  if e.2 = tombstoneSentinel then st
  else
    let s := calcsize e.1 e.2
    let offsets1 := if is_first_block then dictSet offsets e.1 0 else offsets
    if current_block_size + s > sstable_block_size then
      (file ++ encodeRecord e.1 e.2 false,
       dictSet offsets1 e.1 file.length, s, false)
    else
      (file ++ encodeRecord e.1 e.2 false, offsets1,
       current_block_size + s, false)

/-- `_write_dict_to_data_segment`: write every non-tombstone entry in order,
returning the file bytes and the sparse index of block-first keys. -/
def LSMTree.write_dict_to_data_segment (sstable_block_size : Nat)
    (dict_to_write : List (Key × Value)) : List Nat × List (Key × Nat) :=
  let st := dict_to_write.foldl (LSMTree.write_step sstable_block_size)
    ([], [], 0, true)
  (st.1, st.2.1)

/-! ## Engine state and facade (§4.5): `__init__`, `get`, `put`, `delete`,
`_flush_memtable`, `_merge_and_compact` -/

/-- The engine state.  Field names follow the Python attributes.  Note there
are two distinct "being flushed" attributes, exactly as in the source:
`__init__` and `get` use `_memtable_being_flushed` (leading underscore),
while `_flush_memtable` assigns and clears `memtable_being_flushed` (no
underscore).  In Python the latter attribute only springs into existence at
the first flush; modelling it as a field initialised empty is equivalent
because it is empty again at the end of every flush.  The merge-scheduler
thread object and the `storage/` directory handling are not modeled; the
segment pathnames (`storage/segment_<id>`) only name the byte files carried
in `_data_segments`. -/
structure LSMTree where
  _memtable : Memtable
  _memtable_being_flushed : Memtable
  memtable_being_flushed : Memtable
  _memtable_max_size : Nat
  _sstable_block_size : Nat
  _merge_interval : Nat
  _data_segments : List Segment
  _last_sstable_id : Nat
  _last_merged_sstable_id : Nat
deriving DecidableEq

/-- `LSMTree(memtable_max_size=64, sstable_block_size=4, merge_interval=3600)`:
the freshly constructed engine. -/
def initialState : LSMTree :=
  { _memtable := []
    _memtable_being_flushed := []
    memtable_being_flushed := []
    _memtable_max_size := 64 * 1024 * 1024
    _sstable_block_size := 4 * 1024
    _merge_interval := 3600
    _data_segments := []
    _last_sstable_id := 0
    _last_merged_sstable_id := 0 }

/-- `get`'s loop over `reversed(self._data_segments)`: return the first
segment hit (`segment_result[0]`), propagate exceptions, fall off the loop
with `None`. -/
def LSMTree.get_from_segments (key : Key) : List Segment →
    Except Err (Option Value)
  | [] => .ok none
  | segment :: rest =>
    match LSMTree.find_item_in_segment key segment with
    | .error e => .error e
    | .ok (some r) => .ok (some r.1)
    | .ok none => LSMTree.get_from_segments key rest

/-- `get`.  Mirrors the source line by line: the tombstone check on the live
memtable, then `self._memtable.get(key) or self._memtable_being_flushed.get(key)`
(Python `or`, which also discards falsy values - see `pyOr`), then the
newest-to-oldest segment loop. -/
def LSMTree.get (t : LSMTree) (key : Key) : Except Err (Option Value) :=
  if assocGet t._memtable key = some tombstoneSentinel then .ok none
  else
    match pyOr (assocGet t._memtable key)
        (assocGet t._memtable_being_flushed key) with
    | some memtable_result => .ok (some memtable_result)
    | none => LSMTree.get_from_segments key t._data_segments.reverse

/-- `put`: insert into the live memtable.  The size-threshold flush trigger
(`_is_memtable_over_threshold`, a `pympler.asizeof` heap measurement) is not
modeled; flushes are explicit operations (see the header comment). -/
def LSMTree.put (t : LSMTree) (key : Key) (value : Value) : LSMTree :=
  { t with _memtable := assocSet t._memtable key value }

/-- `_flush_memtable`: rotate the live memtable into the (non-underscore!)
`memtable_being_flushed` attribute, write it to a new segment, append
`(name, offsets)` to the segment list, then clear the rotated dict.  The net
effect on the state between operations is recorded here; note the
underscore-prefixed `_memtable_being_flushed` that `get` reads is never
touched. -/
def LSMTree.flush_memtable (t : LSMTree) : LSMTree :=
  let rotated := t._memtable
  let segment := LSMTree.write_dict_to_data_segment t._sstable_block_size rotated
  { t with
    _memtable := []
    memtable_being_flushed := []
    _last_sstable_id := t._last_sstable_id + 1
    _data_segments := t._data_segments ++ [segment] }

/-- `_mark_item_as_tombstoned`: read the key length of the record at byte 0
of the file (the source forgets to seek to `offset` first), then write a
single `True` byte at `offset + 4 + key_length`.  A seek past the end of the
file followed by a write zero-pads the gap, as Python files do. -/
def LSMTree.mark_item_as_tombstoned (file : List Nat) (offset : Nat) :
    Except Err (List Nat) :=
  match readBytes file 0 4 with
  | none => .error .structError
  | some lenBytes =>
    let key_length := debe32 lenBytes
    let p := offset + 4 + key_length
    if p < file.length then .ok (file.set p 1)
    else .ok (file ++ List.replicate (p - file.length) 0 ++ [1])

/-- `delete`'s search loop over `reversed(self._data_segments)`: find the
newest segment with a non-tombstoned record for the key, mark it in place,
and return the updated (still reversed) list; `ok none` models falling off
the loop with `segment_name` still `None`. -/
def LSMTree.delete_scan (key : Key) : List Segment →
    Except Err (Option (List Segment))
  | [] => .ok none
  | segment :: rest =>
    match LSMTree.find_item_in_segment key segment with
    | .error e => .error e
    | .ok (some r) =>
      match LSMTree.mark_item_as_tombstoned segment.1 r.2 with
      | .error e => .error e
      | .ok file2 => .ok (some ((file2, segment.2) :: rest))
    | .ok none =>
      match LSMTree.delete_scan key rest with
      | .error e => .error e
      | .ok none => .ok none
      | .ok (some rest2) => .ok (some (segment :: rest2))

/-- `delete`: tombstone the live memtable entry if the key is present there
(even if already tombstoned), otherwise tombstone the newest on-disk record
in place; raise `KeyError` when nothing is found.  The result carries the
raised exception (if any) together with the state the engine is left in -
the failure paths assign nothing, so they return `t` itself. -/
def LSMTree.delete (t : LSMTree) (key : Key) : Option Err × LSMTree :=
  if assocContains t._memtable key then
    (none, { t with _memtable := assocSet t._memtable key tombstoneSentinel })
  else
    match LSMTree.delete_scan key t._data_segments.reverse with
    | .error e => (some e, t)
    | .ok (some rev2) => (none, { t with _data_segments := rev2.reverse })
    | .ok none => (some .keyNotFound, t)

/-- The `while not self._is_EOF(f): ... _read_item_from_disk(f)` loop used by
`_merge_and_compact` to read a whole segment file sequentially.  Same
end-of-file discipline as the find-item scan; `fuel` as there. -/
def LSMTree.read_all_loop (fuel : Nat) (file : List Nat) (off : Nat) :
    Except Err (List Rec) :=
  match fuel with
  | 0 => .error .structError
  | fuel + 1 =>
    match LSMTree.read_item_from_disk file off with
    | .error e => .error e
    | .ok (r, next) =>
      if next < file.length then
        match LSMTree.read_all_loop fuel file next with
        | .error e => .error e
        | .ok rs => .ok (r :: rs)
      else .ok [r]

/-- Read every record of a segment file in order (the compactor's per-file
loop; the first end-of-file check happens at byte 0 of the freshly opened
file). -/
def LSMTree.read_all_records (file : List Nat) : Except Err (List Rec) :=
  if file.length = 0 then .ok []
  else LSMTree.read_all_loop (file.length + 1) file 0

/-- The compactor's merge fold over one segment's records: non-tombstoned
records overwrite, tombstoned ones evict a present key. -/
def LSMTree.merge_records (merged : Memtable) : List Rec → Memtable
  | [] => merged
  | r :: rest =>
    if !r.tomb then LSMTree.merge_records (assocSet merged r.key r.val) rest
    else if assocContains merged r.key then
      LSMTree.merge_records (assocPop merged r.key) rest
    else LSMTree.merge_records merged rest

/-- Read the segments oldest-to-newest, folding their records into one
sorted dict. -/
def LSMTree.merge_all (merged : Memtable) : List Segment →
    Except Err Memtable
  | [] => .ok merged
  | segment :: rest =>
    match LSMTree.read_all_records segment.1 with
    | .error e => .error e
    | .ok rs => LSMTree.merge_all (LSMTree.merge_records merged rs) rest

/-- `_merge_and_compact`: with at least two segments, merge them all into a
single new segment and replace the list.  The merged-id counter is bumped
before any file is read.  If reading a (corrupt) segment raises, the
exception propagates with `_data_segments` still holding the old list (the
source deletes files from disk as it scans, but only reassigns the list
attribute at the very end). -/
def LSMTree.merge_and_compact (t : LSMTree) : Option Err × LSMTree :=
  if t._data_segments.length > 1 then
    let t1 := { t with _last_merged_sstable_id := t._last_merged_sstable_id + 1 }
    match LSMTree.merge_all [] t._data_segments with
    | .error e => (some e, t1)
    | .ok merged_values =>
      let segment := LSMTree.write_dict_to_data_segment t._sstable_block_size
        merged_values
      (none, { t1 with _data_segments := [segment] })
  else (none, t)

/-- The engine operations a client can drive (plus the timer-driven
compaction); `get` mutates nothing and is not a state transition. -/
inductive Op where
  | put (k : Key) (v : Value)
  | del (k : Key)
  | flush
  | compact

/-- Apply one operation; a raised exception leaves the state the operation
produced up to the raise (see `delete` / `merge_and_compact`). -/
def applyOp (t : LSMTree) : Op → LSMTree
  | .put k v => t.put k v
  | .del k => (t.delete k).2
  | .flush => t.flush_memtable
  | .compact => t.merge_and_compact.2

/-- Run a sequence of operations from a state. -/
def runOps (t : LSMTree) (ops : List Op) : LSMTree := ops.foldl applyOp t

/-! ## Semantic companions used by the theorems -/

/-- The concatenated encoding of a list of records: the byte content of a
segment file holding exactly these records in order. -/
def encodeRecords : List Rec → List Nat
  | [] => []
  | r :: rest => encodeRecord r.key r.val r.tomb ++ encodeRecords rest

/-- Total serialized size of a record list. -/
def recsSize : List Rec → Nat
  | [] => 0
  | r :: rest => calcsize r.key r.val + recsSize rest

/-- The records a memtable's non-tombstone entries become on flush. -/
def recsOf (es : List (Key × Value)) : List Rec :=
  es.map (fun e => ⟨e.1, e.2, false⟩)

/-- The entries the writer actually serializes: everything except
tombstone-sentinel values. -/
def filterNS (es : List (Key × Value)) : List (Key × Value) :=
  es.filter (fun e => !(e.2 = tombstoneSentinel : Bool))

/-- The sparse index the writer computes, reconstructed from the record list
(same block-size accounting as the writer loop): `cur` is the running block
size, `pos` the file position of the next record. -/
def recordsIndexAux (bs cur pos : Nat) : List Rec → List (Key × Nat)
  | [] => []
  | r :: rest =>
    let s := calcsize r.key r.val
    if cur + s > bs then (r.key, pos) :: recordsIndexAux bs s (pos + s) rest
    else recordsIndexAux bs (cur + s) (pos + s) rest

/-- The sparse index for a whole record list: the first record always gets
offset `0`. -/
def recordsIndex (bs : Nat) : List Rec → List (Key × Nat)
  | [] => []
  | r :: rest =>
    (r.key, 0) ::
      recordsIndexAux bs (calcsize r.key r.val) (calcsize r.key r.val) rest

/-- List-level mirror of the find-item scan loop: walk records from a base
offset, succeed on the first non-tombstoned key match, stop after a record
whose key passes the upper bound, return `none` at the end of the list
(= end of file). -/
def scanListB (k : Key) (upper : Option Key) (base : Nat) :
    List Rec → Option (Value × Nat)
  | [] => none
  | r :: rest =>
    if r.key == k && !r.tomb then some (r.val, base)
    else if upperStop upper r.key then none
    else scanListB k upper (base + calcsize r.key r.val) rest

/-- The semantically correct answer of a point lookup in a segment holding
records `rs`: the first record for the key decides (value and byte offset if
live, absent if tombstoned or missing). -/
def segAnswerAux (k : Key) (off : Nat) : List Rec → Option (Value × Nat)
  | [] => none
  | r :: rest =>
    if r.key == k then (if r.tomb then none else some (r.val, off))
    else segAnswerAux k (off + calcsize r.key r.val) rest

/-- "Some segment record for `k` is present and not tombstoned", read
straight off the segment file bytes. -/
def segHasLive (segment : Segment) (k : Key) : Bool :=
  match LSMTree.read_all_records segment.1 with
  | .ok rs => rs.any (fun r => r.key == k && !r.tomb)
  | .error _ => false

/-- The decision of a full linear scan of a segment file's records (the
comparator the sparse-index-lookup claim specifies): decode every record in
order and let the record for the key decide. -/
def linearScanDecision (k : Key) (file : List Nat) :
    Except Err (Option Value) :=
  match LSMTree.read_all_records file with
  | .error e => .error e
  | .ok rs =>
    .ok (match rs.find? (fun r => r.key == k) with
         | some r => if r.tomb then none else some r.val
         | none => none)

/-- A record the codec round-trips: key length fits the 32-bit prefix and
the value is serializable. -/
def RecWF (r : Rec) : Prop := r.key.length < 2 ^ 32 ∧ r.val.supported

instance : DecidablePred RecWF := fun r =>
  inferInstanceAs (Decidable (r.key.length < 2 ^ 32 ∧ r.val.supported))

/-- Strictly ascending record keys (what a segment written from a sorted
dict satisfies). -/
def RecsSorted (rs : List Rec) : Prop :=
  List.Chain' (fun a b => keyLt a.key b.key = true) rs

instance : DecidablePred RecsSorted := fun rs =>
  inferInstanceAs
    (Decidable (List.Chain' (fun (a b : Rec) => keyLt a.key b.key = true) rs))

/-- A well-formed nonempty segment: its file is the encoding of a sorted,
codec-clean, nonempty record list and its sparse index is the writer's index
for those records.  Freshly flushed segments of nonempty memtables have this
shape with all tombstone flags false; an in-place delete mark that hits the
right byte flips one flag and stays in this shape. -/
def WFSegment (bs : Nat) (segment : Segment) : Prop :=
  ∃ rs, (∀ r ∈ rs, RecWF r) ∧ RecsSorted rs ∧ rs ≠ [] ∧
    segment = (encodeRecords rs, recordsIndex bs rs)

/-- Entry lists (memtable contents) with strictly ascending keys. -/
def EntriesSorted (es : List (Key × Value)) : Prop :=
  List.Chain' (fun a b => keyLt a.1 b.1 = true) es

instance : DecidablePred EntriesSorted := fun es =>
  inferInstanceAs
    (Decidable
      (List.Chain' (fun (a b : Key × Value) => keyLt a.1 b.1 = true) es))

/-- Entry lists whose keys and values the codec round-trips. -/
def EntriesWF (es : List (Key × Value)) : Prop :=
  ∀ e ∈ es, e.1.length < 2 ^ 32 ∧ e.2.supported

instance : DecidablePred EntriesWF := fun es =>
  inferInstanceAs
    (Decidable (∀ e ∈ es, e.1.length < 2 ^ 32 ∧ e.2.supported))

/-- Default record (for `headD` on provably nonempty blocks). -/
def recDflt : Rec := ⟨[], .int 0, false⟩

/-- Greedy block partition of a record list, following §4.2 of the spec:
records accumulate into the current block while they fit, a record that
would overflow starts a new block.  This is the spec-side comparator for the
sparse-index claim. -/
def specBlocksAux (bs : Nat) (curBlock : List Rec) (cur : Nat) :
    List Rec → List (List Rec)
  | [] => [curBlock]
  | r :: rest =>
    let s := calcsize r.key r.val
    if cur + s > bs then curBlock :: specBlocksAux bs [r] s rest
    else specBlocksAux bs (curBlock ++ [r]) (cur + s) rest

/-- Greedy block partition of a whole record list (empty list: no blocks). -/
def specBlocks (bs : Nat) : List Rec → List (List Rec)
  | [] => []
  | r :: rest => specBlocksAux bs [r] (calcsize r.key r.val) rest

/-- The index §4.2 describes: the first key of each block, mapped to the
byte offset at which the block starts; the first block starts at offset 0. -/
def specIndexAux (pos : Nat) : List (List Rec) → List (Key × Nat)
  | [] => []
  | b :: rest => ((b.headD recDflt).key, pos) :: specIndexAux (pos + recsSize b) rest

/-! ## Writer characterization -/

/-- The `current_block_size` value after the writer processes a record
list starting from running size `cur`. -/
def curAfter (bs cur : Nat) : List Rec → Nat
  | [] => cur
  | r :: rest =>
    let s := calcsize r.key r.val
    if cur + s > bs then curAfter bs s rest else curAfter bs (cur + s) rest

/-! ## Theorems -/

theorem debe32_be32 (n : Nat) (h : n < 2 ^ 32) : debe32 (be32 n) = n := by
  simp only [be32, debe32]
  omega

theorem debe64_be64 (n : Nat) (h : n < 2 ^ 64) : debe64 (be64 n) = n := by
  simp only [be64, debe64]
  omega

theorem debe32i_be32i (n : Int) (h1 : -(2 ^ 31) ≤ n) (h2 : n < 2 ^ 31) :
    debe32i (be32i n) = n := by
  have h32 : (2 : Int) ^ 32 = 4294967296 := by norm_num
  simp only [be32i, debe32i, h32]
  rw [debe32_be32 _ (by omega)]
  split <;> omega

theorem be32_length (n : Nat) : (be32 n).length = 4 := rfl

theorem be64_length (n : Nat) : (be64 n).length = 8 := rfl

theorem be32i_length (n : Int) : (be32i n).length = 4 := rfl

theorem encodeRecord_length (k : Key) (v : Value) (tomb : Bool) :
    (encodeRecord k v tomb).length = calcsize k v := by
  cases v <;>
    simp [encodeRecord, calcsize, be32, be64, be32i] <;> omega

theorem calcsize_ge_ten (k : Key) (v : Value) : 10 ≤ calcsize k v := by
  cases v <;> simp [calcsize] <;> omega

/-! ## Key-order toolkit -/

theorem keyLt_irrefl (a : Key) : keyLt a a = false := by
  induction a with
  | nil => rfl
  | cons x xs ih => simp [keyLt, ih]

theorem keyLt_trans {a b c : Key} (h1 : keyLt a b = true)
    (h2 : keyLt b c = true) : keyLt a c = true := by
  induction a generalizing b c with
  | nil =>
    cases b with
    | nil => simp [keyLt] at h1
    | cons y ys =>
      cases c with
      | nil => simp [keyLt] at h2
      | cons z zs => simp [keyLt]
  | cons x xs ih =>
    cases b with
    | nil => simp [keyLt] at h1
    | cons y ys =>
      cases c with
      | nil => simp [keyLt] at h2
      | cons z zs =>
        simp only [keyLt, Bool.or_eq_true, Bool.and_eq_true, beq_iff_eq,
          decide_eq_true_eq] at h1 h2 ⊢
        rcases h1 with h1 | ⟨rfl, h1⟩ <;> rcases h2 with h2 | ⟨rfl, h2⟩
        · exact Or.inl (Nat.lt_trans h1 h2)
        · exact Or.inl h1
        · exact Or.inl h2
        · exact Or.inr ⟨rfl, ih h1 h2⟩

theorem keyLt_asymm {a b : Key} (h : keyLt a b = true) : keyLt b a = false := by
  by_contra hc
  have hba : keyLt b a = true := by
    cases hx : keyLt b a
    · exact absurd hx hc
    · rfl
  have := keyLt_trans h hba
  rw [keyLt_irrefl] at this
  exact Bool.false_ne_true this

theorem keyLt_total (a b : Key) :
    keyLt a b = true ∨ a = b ∨ keyLt b a = true := by
  induction a generalizing b with
  | nil =>
    cases b with
    | nil => exact Or.inr (Or.inl rfl)
    | cons y ys => exact Or.inl (by simp [keyLt])
  | cons x xs ih =>
    cases b with
    | nil => exact Or.inr (Or.inr (by simp [keyLt]))
    | cons y ys =>
      rcases Nat.lt_trichotomy x y with h | h | h
      · exact Or.inl (by simp [keyLt, h])
      · subst h
        rcases ih ys with h2 | h2 | h2
        · exact Or.inl (by simp [keyLt, h2])
        · exact Or.inr (Or.inl (by rw [h2]))
        · exact Or.inr (Or.inr (by simp [keyLt, h2]))
      · exact Or.inr (Or.inr (by simp [keyLt, h]))

theorem keyLt_of_ne_of_not_lt {a b : Key} (hne : a ≠ b)
    (h : keyLt a b = false) : keyLt b a = true := by
  rcases keyLt_total a b with h1 | h1 | h1
  · rw [h1] at h; exact absurd h (by simp)
  · exact absurd h1 hne
  · exact h1

theorem ne_of_keyLt {a b : Key} (h : keyLt a b = true) : a ≠ b := by
  intro he
  subst he
  rw [keyLt_irrefl] at h
  exact Bool.false_ne_true h

/-! ## List positioning helpers for byte-level reads -/

theorem readBytes_exact (x y z : List Nat) (off n : Nat)
    (hoff : off = x.length) (hn : n = y.length) :
    readBytes (x ++ (y ++ z)) off n = some y := by
  subst hoff hn
  have hcond : x.length + y.length ≤ (x ++ (y ++ z)).length := by
    simp only [List.length_append]
    omega
  simp only [readBytes, if_pos hcond]
  rw [List.drop_left, List.take_left]

/-! ## Codec round-trip at an arbitrary record boundary -/

theorem read_item_encodeRecord (pre post : List Nat) (k : Key) (v : Value)
    (tomb : Bool) (hk : k.length < 2 ^ 32) (hv : v.supported) :
    LSMTree.read_item_from_disk (pre ++ encodeRecord k v tomb ++ post)
      pre.length = .ok (⟨k, v, tomb⟩, pre.length + calcsize k v) := by
  have htb : (([if tomb then 1 else 0] : List Nat) != [0]) = tomb := by
    cases tomb <;> decide
  cases v with
  | int n =>
    have e0 : pre ++ encodeRecord k (.int n) tomb ++ post =
        pre ++ (be32 k.length ++ (k ++ ([if tomb then 1 else 0] ++
          ([typeCharInt] ++ (be32i n ++ post))))) := by
      simp [encodeRecord, List.append_assoc]
    have r1 := readBytes_exact pre (be32 k.length)
      (k ++ ([if tomb then 1 else 0] ++ ([typeCharInt] ++ (be32i n ++ post))))
      pre.length 4 rfl (by simp only [List.length_append, be32_length, be64_length, be32i_length, List.length_cons, List.length_nil] <;> omega)
    have r2 := readBytes_exact (pre ++ be32 k.length) k
      ([if tomb then 1 else 0] ++ ([typeCharInt] ++ (be32i n ++ post)))
      (pre.length + 4) k.length (by simp only [List.length_append, be32_length, be64_length, be32i_length, List.length_cons, List.length_nil] <;> omega) rfl
    have r3 := readBytes_exact (pre ++ be32 k.length ++ k)
      [if tomb then 1 else 0] ([typeCharInt] ++ (be32i n ++ post))
      (pre.length + 4 + k.length) 1 (by simp only [List.length_append, be32_length, be64_length, be32i_length, List.length_cons, List.length_nil] <;> omega) rfl
    have r4 := readBytes_exact
      (pre ++ be32 k.length ++ k ++ [if tomb then 1 else 0]) [typeCharInt]
      (be32i n ++ post) (pre.length + 4 + k.length + 1) 1
      (by simp only [List.length_append, be32_length, be64_length, be32i_length, List.length_cons, List.length_nil] <;> omega) rfl
    have r5 := readBytes_exact
      (pre ++ be32 k.length ++ k ++ [if tomb then 1 else 0] ++ [typeCharInt])
      (be32i n) post (pre.length + 4 + k.length + 2) 4
      (by simp only [List.length_append, be32_length, be64_length, be32i_length, List.length_cons, List.length_nil] <;> omega) (by simp only [List.length_append, be32_length, be64_length, be32i_length, List.length_cons, List.length_nil] <;> omega)
    rw [e0]
    simp only [List.append_assoc] at r1 r2 r3 r4 r5
    simp only [LSMTree.read_item_from_disk, r1, r2, r3, r4, r5,
      debe32_be32 k.length hk]
    have hts : ([typeCharInt] = [typeCharStr]) = False := by
      simp [typeCharInt, typeCharStr]
    have hti : ([typeCharInt] = [typeCharInt]) = True := by simp
    have htf : ([typeCharInt] = [typeCharFloat]) = False := by
      simp [typeCharInt, typeCharFloat]
    simp only [hts, hti, htf, if_false, if_true]
    rw [debe32i_be32i n hv.1 hv.2, htb]
    simp [calcsize]
    omega
  | float bits =>
    have e0 : pre ++ encodeRecord k (.float bits) tomb ++ post =
        pre ++ (be32 k.length ++ (k ++ ([if tomb then 1 else 0] ++
          ([typeCharFloat] ++ (be64 bits ++ post))))) := by
      simp [encodeRecord, List.append_assoc]
    have r1 := readBytes_exact pre (be32 k.length)
      (k ++ ([if tomb then 1 else 0] ++ ([typeCharFloat] ++ (be64 bits ++ post))))
      pre.length 4 rfl (by simp only [List.length_append, be32_length, be64_length, be32i_length, List.length_cons, List.length_nil] <;> omega)
    have r2 := readBytes_exact (pre ++ be32 k.length) k
      ([if tomb then 1 else 0] ++ ([typeCharFloat] ++ (be64 bits ++ post)))
      (pre.length + 4) k.length (by simp only [List.length_append, be32_length, be64_length, be32i_length, List.length_cons, List.length_nil] <;> omega) rfl
    have r3 := readBytes_exact (pre ++ be32 k.length ++ k)
      [if tomb then 1 else 0] ([typeCharFloat] ++ (be64 bits ++ post))
      (pre.length + 4 + k.length) 1 (by simp only [List.length_append, be32_length, be64_length, be32i_length, List.length_cons, List.length_nil] <;> omega) rfl
    have r4 := readBytes_exact
      (pre ++ be32 k.length ++ k ++ [if tomb then 1 else 0]) [typeCharFloat]
      (be64 bits ++ post) (pre.length + 4 + k.length + 1) 1
      (by simp only [List.length_append, be32_length, be64_length, be32i_length, List.length_cons, List.length_nil] <;> omega) rfl
    have r5 := readBytes_exact
      (pre ++ be32 k.length ++ k ++ [if tomb then 1 else 0] ++ [typeCharFloat])
      (be64 bits) post (pre.length + 4 + k.length + 2) 8
      (by simp only [List.length_append, be32_length, be64_length, be32i_length, List.length_cons, List.length_nil] <;> omega) (by simp only [List.length_append, be32_length, be64_length, be32i_length, List.length_cons, List.length_nil] <;> omega)
    rw [e0]
    simp only [List.append_assoc] at r1 r2 r3 r4 r5
    simp only [LSMTree.read_item_from_disk, r1, r2, r3, r4, r5,
      debe32_be32 k.length hk]
    have hts : ([typeCharFloat] = [typeCharStr]) = False := by
      simp [typeCharFloat, typeCharStr]
    have hti : ([typeCharFloat] = [typeCharInt]) = False := by
      simp [typeCharFloat, typeCharInt]
    have htf : ([typeCharFloat] = [typeCharFloat]) = True := by simp
    simp only [hts, hti, htf, if_false, if_true]
    rw [debe64_be64 bits hv, htb]
    simp [calcsize]
    omega
  | str s =>
    have e0 : pre ++ encodeRecord k (.str s) tomb ++ post =
        pre ++ (be32 k.length ++ (k ++ ([if tomb then 1 else 0] ++
          ([typeCharStr] ++ (be32 s.length ++ (s ++ post)))))) := by
      simp [encodeRecord, List.append_assoc]
    have r1 := readBytes_exact pre (be32 k.length)
      (k ++ ([if tomb then 1 else 0] ++
        ([typeCharStr] ++ (be32 s.length ++ (s ++ post)))))
      pre.length 4 rfl (by simp only [List.length_append, be32_length, be64_length, be32i_length, List.length_cons, List.length_nil] <;> omega)
    have r2 := readBytes_exact (pre ++ be32 k.length) k
      ([if tomb then 1 else 0] ++
        ([typeCharStr] ++ (be32 s.length ++ (s ++ post))))
      (pre.length + 4) k.length (by simp only [List.length_append, be32_length, be64_length, be32i_length, List.length_cons, List.length_nil] <;> omega) rfl
    have r3 := readBytes_exact (pre ++ be32 k.length ++ k)
      [if tomb then 1 else 0]
      ([typeCharStr] ++ (be32 s.length ++ (s ++ post)))
      (pre.length + 4 + k.length) 1 (by simp only [List.length_append, be32_length, be64_length, be32i_length, List.length_cons, List.length_nil] <;> omega) rfl
    have r4 := readBytes_exact
      (pre ++ be32 k.length ++ k ++ [if tomb then 1 else 0]) [typeCharStr]
      (be32 s.length ++ (s ++ post)) (pre.length + 4 + k.length + 1) 1
      (by simp only [List.length_append, be32_length, be64_length, be32i_length, List.length_cons, List.length_nil] <;> omega) rfl
    have r5 := readBytes_exact
      (pre ++ be32 k.length ++ k ++ [if tomb then 1 else 0] ++ [typeCharStr])
      (be32 s.length) (s ++ post) (pre.length + 4 + k.length + 2) 4
      (by simp only [List.length_append, be32_length, be64_length, be32i_length, List.length_cons, List.length_nil] <;> omega) (by simp only [List.length_append, be32_length, be64_length, be32i_length, List.length_cons, List.length_nil] <;> omega)
    have r6 := readBytes_exact
      (pre ++ be32 k.length ++ k ++ [if tomb then 1 else 0] ++ [typeCharStr] ++
        be32 s.length) s post (pre.length + 4 + k.length + 6) s.length
      (by simp only [List.length_append, be32_length, be64_length, be32i_length, List.length_cons, List.length_nil] <;> omega) rfl
    rw [e0]
    simp only [List.append_assoc] at r1 r2 r3 r4 r5 r6
    simp only [LSMTree.read_item_from_disk, r1, r2, r3, r4, r5,
      debe32_be32 k.length hk]
    have hts : ([typeCharStr] = [typeCharStr]) = True := by simp
    simp only [hts, if_true]
    have hslen : s.length < 2 ^ 32 := by
      have := hv
      simp only [Value.supported] at this
      omega
    rw [debe32_be32 s.length hslen]
    simp only [r6, htb]
    simp [calcsize]
    omega

/-! ## Encoded record lists -/

theorem encodeRecords_append (a b : List Rec) :
    encodeRecords (a ++ b) = encodeRecords a ++ encodeRecords b := by
  induction a with
  | nil => rfl
  | cons r rest ih => simp [encodeRecords, ih]

theorem encodeRecords_length (rs : List Rec) :
    (encodeRecords rs).length = recsSize rs := by
  induction rs with
  | nil => rfl
  | cons r rest ih =>
    simp [encodeRecords, recsSize, ih, encodeRecord_length]

theorem recsSize_append (a b : List Rec) :
    recsSize (a ++ b) = recsSize a + recsSize b := by
  induction a with
  | nil => simp [recsSize]
  | cons r rest ih => simp [recsSize, ih]; omega

theorem length_le_recsSize (rs : List Rec) : rs.length ≤ recsSize rs := by
  induction rs with
  | nil => simp [recsSize]
  | cons r rest ih =>
    have := calcsize_ge_ten r.key r.val
    simp only [recsSize, List.length_cons]
    omega

theorem recsSize_pos {rs : List Rec} (h : rs ≠ []) : 0 < recsSize rs := by
  cases rs with
  | nil => exact absurd rfl h
  | cons r rest =>
    have := calcsize_ge_ten r.key r.val
    simp only [recsSize]
    omega

/-- Decoding at the boundary between `pre` and a record inside a fully
encoded file. -/
theorem read_item_encodeRecords (pre : List Rec) (r : Rec) (rest : List Rec)
    (hr : RecWF r) :
    LSMTree.read_item_from_disk (encodeRecords (pre ++ r :: rest))
      (encodeRecords pre).length =
      .ok (r, (encodeRecords pre).length + calcsize r.key r.val) := by
  rw [show encodeRecords (pre ++ r :: rest) =
      encodeRecords pre ++ encodeRecord r.key r.val r.tomb ++
        encodeRecords rest from by
    rw [encodeRecords_append]
    simp [encodeRecords, List.append_assoc]]
  exact read_item_encodeRecord _ _ _ _ _ hr.1 hr.2

/-- Length of a file encoding `pre ++ r :: rest`. -/
theorem encodeRecords_mid_length (pre : List Rec) (r : Rec) (rest : List Rec) :
    (encodeRecords (pre ++ r :: rest)).length =
      recsSize pre + calcsize r.key r.val + recsSize rest := by
  rw [encodeRecords_length, recsSize_append, recsSize]
  omega

/-! ## The scan loop on well-formed encoded files -/

theorem find_item_scan_loop_spec (k : Key) (upper : Option Key) :
    ∀ (suf pre : List Rec) (fuel : Nat), (∀ r ∈ suf, RecWF r) → suf ≠ [] →
    suf.length ≤ fuel →
    LSMTree.find_item_scan_loop fuel (encodeRecords (pre ++ suf)) k upper
      (encodeRecords pre).length =
      .ok (scanListB k upper (encodeRecords pre).length suf) := by
  intro suf
  induction suf with
  | nil => intro pre fuel _ hne _; exact absurd rfl hne
  | cons r rest ih =>
    intro pre fuel hwf _ hfuel
    cases fuel with
    | zero => simp at hfuel
    | succ f =>
      have hr : RecWF r := hwf r (by simp)
      have hread := read_item_encodeRecords pre r rest hr
      have hlen := encodeRecords_mid_length pre r rest
      simp only [LSMTree.find_item_scan_loop, hread, scanListB]
      by_cases h1 : (r.key == k && !r.tomb) = true
      · rw [if_pos h1, if_pos h1]
      · rw [if_neg h1, if_neg h1]
        by_cases h2 : upperStop upper r.key = true
        · rw [if_pos h2, if_pos h2]
        · rw [if_neg h2, if_neg h2]
          by_cases h3 : rest = []
          · subst h3
            rw [if_neg (by
              rw [hlen, encodeRecords_length]
              simp [recsSize])]
            simp [scanListB]
          · have hpos : 0 < recsSize rest := recsSize_pos h3
            rw [if_pos (by rw [hlen, encodeRecords_length]; omega)]
            have hstep : (encodeRecords pre).length + calcsize r.key r.val
                = (encodeRecords (pre ++ [r])).length := by
              rw [encodeRecords_append]
              simp [encodeRecords, encodeRecord_length]
            rw [hstep, show pre ++ r :: rest = (pre ++ [r]) ++ rest from by
              simp]
            rw [ih (pre ++ [r]) f (fun x hx => hwf x (by simp [hx])) h3
              (by simp only [List.length_cons] at hfuel; omega)]

/-- The scan loop as `_find_item_in_segment` invokes it (fuel
`file.length + 1`), on a well-formed encoded file, starting at a record
boundary: it computes the list-level scan. -/
theorem find_item_scan_loop_run (k : Key) (upper : Option Key)
    (pre suf : List Rec) (hwf : ∀ r ∈ suf, RecWF r) (hne : suf ≠ []) :
    LSMTree.find_item_scan_loop ((encodeRecords (pre ++ suf)).length + 1)
      (encodeRecords (pre ++ suf)) k upper (encodeRecords pre).length =
      .ok (scanListB k upper (encodeRecords pre).length suf) := by
  apply find_item_scan_loop_spec k upper suf pre _ hwf hne
  have h1 : suf.length ≤ recsSize suf := length_le_recsSize suf
  have h2 : (encodeRecords (pre ++ suf)).length =
      recsSize pre + recsSize suf := by
    rw [encodeRecords_length, recsSize_append]
  omega

/-! ## The compactor's sequential segment read -/

theorem read_all_loop_spec :
    ∀ (suf pre : List Rec) (fuel : Nat), suf ≠ [] → suf.length ≤ fuel →
    (∀ r ∈ suf, RecWF r) →
    LSMTree.read_all_loop fuel (encodeRecords (pre ++ suf))
      (encodeRecords pre).length = .ok suf := by
  intro suf
  induction suf with
  | nil => intro pre fuel hne _ _; exact absurd rfl hne
  | cons r rest ih =>
    intro pre fuel _ hfuel hwf
    cases fuel with
    | zero => simp at hfuel
    | succ f =>
      have hr : RecWF r := hwf r (by simp)
      have hread := read_item_encodeRecords pre r rest hr
      have hlen := encodeRecords_mid_length pre r rest
      simp only [LSMTree.read_all_loop, hread]
      by_cases h3 : rest = []
      · subst h3
        rw [if_neg (by
          rw [hlen, encodeRecords_length]
          simp [recsSize])]
      · have hpos : 0 < recsSize rest := recsSize_pos h3
        rw [if_pos (by rw [hlen, encodeRecords_length]; omega)]
        have hstep : (encodeRecords pre).length + calcsize r.key r.val
            = (encodeRecords (pre ++ [r])).length := by
          rw [encodeRecords_append]
          simp [encodeRecords, encodeRecord_length]
        rw [hstep, show pre ++ r :: rest = (pre ++ [r]) ++ rest from by simp]
        rw [ih (pre ++ [r]) f h3
          (by simp only [List.length_cons] at hfuel; omega)
          (fun x hx => hwf x (by simp [hx]))]

/-- Reading back a well-formed encoded segment file recovers its records. -/
theorem read_all_records_encode (rs : List Rec) (hwf : ∀ r ∈ rs, RecWF r) :
    LSMTree.read_all_records (encodeRecords rs) = .ok rs := by
  by_cases hrs : rs = []
  · subst hrs; simp [LSMTree.read_all_records, encodeRecords]
  · have hpos : 0 < recsSize rs := recsSize_pos hrs
    rw [LSMTree.read_all_records, if_neg (by rw [encodeRecords_length]; omega)]
    have := read_all_loop_spec rs [] ((encodeRecords rs).length + 1) hrs
      (by
        have h1 := length_le_recsSize rs
        have h2 := encodeRecords_length rs
        omega)
      hwf
    simpa [encodeRecords] using this

theorem dictSet_append {α : Type} (O : List (Key × α)) (k : Key) (v : α)
    (h : ∀ p ∈ O, k ≠ p.1) : dictSet O k v = O ++ [(k, v)] := by
  induction O with
  | nil => rfl
  | cons p ps ih =>
    have hne : ¬(k == p.1) = true := by
      simp only [beq_iff_eq]
      exact h p (by simp)
    simp only [dictSet]
    rw [if_neg hne]
    rw [ih (fun q hq => h q (by simp [hq]))]
    rfl

theorem filterNS_cons_sentinel (e : Key × Value) (rest : List (Key × Value))
    (h : e.2 = tombstoneSentinel) : filterNS (e :: rest) = filterNS rest := by
  simp [filterNS, List.filter_cons, h]

theorem filterNS_cons_keep (e : Key × Value) (rest : List (Key × Value))
    (h : ¬e.2 = tombstoneSentinel) :
    filterNS (e :: rest) = e :: filterNS rest := by
  simp [filterNS, List.filter_cons, h]

/-- The writer's fold after the first block has started (`is_first_block`
false): it appends the remaining records and index entries. -/
theorem write_fold_false (bs : Nat) :
    ∀ (es : List (Key × Value)) (F : List Nat) (O : List (Key × Nat))
      (c : Nat),
    List.Pairwise (fun a b => a.1 ≠ b.1) es →
    (∀ p ∈ O, ∀ q ∈ es, p.1 ≠ q.1) →
    es.foldl (LSMTree.write_step bs) (F, O, c, false) =
      (F ++ encodeRecords (recsOf (filterNS es)),
       O ++ recordsIndexAux bs c F.length (recsOf (filterNS es)),
       curAfter bs c (recsOf (filterNS es)), false) := by
  intro es
  induction es with
  | nil =>
    intro F O c _ _
    simp [filterNS, recsOf, encodeRecords, recordsIndexAux, curAfter]
  | cons e rest ih =>
    intro F O c hpw hdisj
    rw [List.foldl_cons]
    by_cases hts : e.2 = tombstoneSentinel
    · rw [show LSMTree.write_step bs (F, O, c, false) e = (F, O, c, false)
        from by simp [LSMTree.write_step, hts]]
      rw [ih F O c hpw.of_cons
        (fun p hp q hq => hdisj p hp q (by simp [hq]))]
      rw [filterNS_cons_sentinel e rest hts]
    · have hstep : LSMTree.write_step bs (F, O, c, false) e =
          if c + calcsize e.1 e.2 > bs then
            (F ++ encodeRecord e.1 e.2 false, dictSet O e.1 F.length,
             calcsize e.1 e.2, false)
          else
            (F ++ encodeRecord e.1 e.2 false, O, c + calcsize e.1 e.2,
             false) := by
        simp only [LSMTree.write_step, if_neg hts]
        split <;> rfl
      have hfc : filterNS (e :: rest) = e :: filterNS rest :=
        filterNS_cons_keep e rest hts
      have hrc : recsOf (e :: filterNS rest) =
          (⟨e.1, e.2, false⟩ : Rec) :: recsOf (filterNS rest) := rfl
      have hdisj' : ∀ p ∈ O, ∀ q ∈ rest, p.1 ≠ q.1 :=
        fun p hp q hq => hdisj p hp q (by simp [hq])
      have hkey : ∀ q ∈ rest, e.1 ≠ q.1 := by
        intro q hq
        exact (List.pairwise_cons.mp hpw).1 q hq
      rw [hstep]
      by_cases hgt : c + calcsize e.1 e.2 > bs
      · rw [if_pos hgt]
        rw [dictSet_append O e.1 F.length
          (fun p hp => (hdisj p hp e (by simp)).symm)]
        rw [ih (F ++ encodeRecord e.1 e.2 false) (O ++ [(e.1, F.length)])
          (calcsize e.1 e.2) hpw.of_cons (by
            intro p hp q hq
            rcases List.mem_append.mp hp with hp | hp
            · exact hdisj' p hp q hq
            · simp at hp
              subst hp
              exact hkey q hq)]
        rw [hfc, hrc]
        simp only [encodeRecords, recordsIndexAux, curAfter]
        rw [if_pos hgt, if_pos hgt]
        simp [List.append_assoc, encodeRecord_length]
      · rw [if_neg hgt]
        rw [ih (F ++ encodeRecord e.1 e.2 false) O (c + calcsize e.1 e.2)
          hpw.of_cons hdisj']
        rw [hfc, hrc]
        simp only [encodeRecords, recordsIndexAux, curAfter]
        rw [if_neg hgt, if_neg hgt]
        simp [List.append_assoc, encodeRecord_length]

/-- `_write_dict_to_data_segment` on a dict with pairwise-distinct keys:
the file is the concatenated encoding of the non-tombstone entries and the
returned sparse index is `recordsIndex`. -/
theorem write_dict_spec (bs : Nat) (es : List (Key × Value))
    (hpw : List.Pairwise (fun a b => a.1 ≠ b.1) es) :
    LSMTree.write_dict_to_data_segment bs es =
      (encodeRecords (recsOf (filterNS es)),
       recordsIndex bs (recsOf (filterNS es))) := by
  induction es with
  | nil => rfl
  | cons e rest ih =>
    by_cases hts : e.2 = tombstoneSentinel
    · have hskip : LSMTree.write_step bs ([], [], 0, true) e =
          ([], [], 0, true) := by simp [LSMTree.write_step, hts]
      unfold LSMTree.write_dict_to_data_segment
      rw [List.foldl_cons, hskip]
      rw [filterNS_cons_sentinel e rest hts]
      exact ih hpw.of_cons
    · have hkey : ∀ q ∈ rest, e.1 ≠ q.1 :=
        fun q hq => (List.pairwise_cons.mp hpw).1 q hq
      have hstep : LSMTree.write_step bs ([], [], 0, true) e =
          (encodeRecord e.1 e.2 false, [(e.1, 0)], calcsize e.1 e.2,
           false) := by
        simp only [LSMTree.write_step, if_neg hts]
        split <;> simp [dictSet]
      unfold LSMTree.write_dict_to_data_segment
      rw [List.foldl_cons, hstep]
      rw [write_fold_false bs rest (encodeRecord e.1 e.2 false) [(e.1, 0)]
        (calcsize e.1 e.2) hpw.of_cons (by
          intro p hp q hq
          simp at hp
          subst hp
          exact hkey q hq)]
      rw [filterNS_cons_keep e rest hts]
      simp only [recsOf, List.map_cons]
      simp only [encodeRecords, recordsIndex]
      rw [encodeRecord_length]
      simp [recsOf]

/-! ## Association-list lemmas -/

theorem assocGet_mem {α : Type} {m : List (Key × α)} {k : Key} {v : α}
    (h : assocGet m k = some v) : (k, v) ∈ m := by
  induction m with
  | nil => simp [assocGet] at h
  | cons p ps ih =>
    by_cases he : (k == p.1) = true
    · rw [assocGet, if_pos he] at h
      have : p = (k, v) := by
        cases p
        simp only [beq_iff_eq] at he
        cases h
        simp [he]
      simp [this]
    · rw [assocGet, if_neg he] at h
      exact List.mem_cons_of_mem _ (ih h)

theorem assocGet_eq_none_iff {α : Type} {m : List (Key × α)} {k : Key} :
    assocGet m k = none ↔ ∀ p ∈ m, k ≠ p.1 := by
  induction m with
  | nil => simp [assocGet]
  | cons p ps ih =>
    by_cases he : (k == p.1) = true
    · rw [assocGet, if_pos he]
      simp only [beq_iff_eq] at he
      simp [he]
    · rw [assocGet, if_neg he]
      simp only [beq_iff_eq] at he
      rw [ih]
      constructor
      · intro h q hq
        rcases List.mem_cons.mp hq with rfl | hq
        · exact he
        · exact h q hq
      · intro h q hq
        exact h q (List.mem_cons_of_mem _ hq)

theorem assocGet_some_of_mem_keys {α : Type} {m : List (Key × α)} {k : Key}
    (h : k ∈ m.map Prod.fst) : ∃ v, assocGet m k = some v := by
  cases hg : assocGet m k with
  | some v => exact ⟨v, rfl⟩
  | none =>
    rcases List.mem_map.mp h with ⟨p, hp, hk⟩
    exact absurd hk.symm (assocGet_eq_none_iff.mp hg p hp)

/-! ## `bisect_left` on sorted key lists -/

theorem bisectLeft_le_length (ks : List Key) (k : Key) :
    bisectLeft ks k ≤ ks.length := by
  induction ks with
  | nil => simp [bisectLeft]
  | cons x rest ih =>
    rw [bisectLeft]
    split
    · simp only [List.length_cons]; omega
    · simp

/-- When the insertion point is positive, the key just below it is strictly
below the probe. -/
theorem bisectLeft_lower (ks : List Key) (k : Key)
    (h : 1 ≤ bisectLeft ks k) :
    ∃ lo, ks.get? (bisectLeft ks k - 1) = some lo ∧ keyLt lo k = true := by
  induction ks with
  | nil => simp [bisectLeft] at h
  | cons x rest ih =>
    rw [bisectLeft] at h ⊢
    by_cases hx : keyLt x k = true
    · rw [if_pos hx] at h ⊢
      by_cases hz : bisectLeft rest k = 0
      · exact ⟨x, by simp [hz], hx⟩
      · rcases ih (by omega) with ⟨lo, hget, hlt⟩
        refine ⟨lo, ?_, hlt⟩
        have : bisectLeft rest k + 1 - 1 = (bisectLeft rest k - 1) + 1 := by
          omega
        rw [this, List.get?_cons_succ]
        exact hget
    · rw [if_neg hx] at h
      omega

/-- When the insertion point is inside the list, the key at it is at least
the probe (needs sortedness). -/
theorem bisectLeft_upper (ks : List Key) (k : Key)
    (hs : List.Pairwise (fun a b => keyLt a b = true) ks)
    (h : bisectLeft ks k < ks.length) :
    ∃ hi, ks.get? (bisectLeft ks k) = some hi ∧ keyLt hi k = false := by
  induction ks with
  | nil => simp at h
  | cons x rest ih =>
    rw [bisectLeft] at h ⊢
    by_cases hx : keyLt x k = true
    · rw [if_pos hx] at h ⊢
      simp only [List.length_cons] at h
      rcases ih hs.of_cons (by omega) with ⟨hi, hget, hge⟩
      exact ⟨hi, by rw [List.get?_cons_succ]; exact hget, hge⟩
    · rw [if_neg hx] at h ⊢
      refine ⟨x, by simp, ?_⟩
      cases hlt : keyLt x k
      · rfl
      · exact absurd hlt hx

theorem bisectLeft_zero_head (x : Key) (rest : List Key) (k : Key)
    (h : bisectLeft (x :: rest) k = 0) : keyLt x k = false := by
  rw [bisectLeft] at h
  by_cases hx : keyLt x k = true
  · rw [if_pos hx] at h; omega
  · cases hlt : keyLt x k
    · rfl
    · exact absurd hlt hx

/-! ## recordsIndex properties -/

/-- Every sparse-index entry points at the start of a record with that key. -/
theorem recordsIndexAux_mem (bs : Nat) :
    ∀ (rs : List Rec) (cur pos : Nat) (k : Key) (o : Nat),
    (k, o) ∈ recordsIndexAux bs cur pos rs →
    ∃ pre r post, rs = pre ++ r :: post ∧ r.key = k ∧
      o = pos + recsSize pre := by
  intro rs
  induction rs with
  | nil => intro cur pos k o h; simp [recordsIndexAux] at h
  | cons r rest ih =>
    intro cur pos k o h
    rw [recordsIndexAux] at h
    by_cases hgt : cur + calcsize r.key r.val > bs
    · rw [if_pos hgt] at h
      rcases List.mem_cons.mp h with he | h
      · refine ⟨[], r, rest, by simp, ?_, ?_⟩
        · cases he; rfl
        · cases he; simp [recsSize]
      · rcases ih (calcsize r.key r.val) (pos + calcsize r.key r.val) k o h
          with ⟨pre, r2, post, hsplit, hk, ho⟩
        refine ⟨r :: pre, r2, post, by simp [hsplit], hk, ?_⟩
        simp [recsSize, ho]
        omega
    · rw [if_neg hgt] at h
      rcases ih (cur + calcsize r.key r.val) (pos + calcsize r.key r.val) k o h
        with ⟨pre, r2, post, hsplit, hk, ho⟩
      refine ⟨r :: pre, r2, post, by simp [hsplit], hk, ?_⟩
      simp [recsSize, ho]
      omega

theorem recordsIndex_mem (bs : Nat) (rs : List Rec) (k : Key) (o : Nat)
    (h : (k, o) ∈ recordsIndex bs rs) :
    ∃ pre r post, rs = pre ++ r :: post ∧ r.key = k ∧ o = recsSize pre := by
  cases rs with
  | nil => simp [recordsIndex] at h
  | cons r rest =>
    rw [recordsIndex] at h
    rcases List.mem_cons.mp h with he | h
    · refine ⟨[], r, rest, by simp, ?_, ?_⟩
      · cases he; rfl
      · cases he; simp [recsSize]
    · rcases recordsIndexAux_mem bs rest (calcsize r.key r.val)
        (calcsize r.key r.val) k o h with ⟨pre, r2, post, hsplit, hk, ho⟩
      refine ⟨r :: pre, r2, post, by simp [hsplit], hk, ?_⟩
      simp [recsSize, ho]

/-- The sparse-index keys form a sublist of the record keys. -/
theorem recordsIndexAux_keys_sublist (bs : Nat) :
    ∀ (rs : List Rec) (cur pos : Nat),
    ((recordsIndexAux bs cur pos rs).map Prod.fst).Sublist
      (rs.map Rec.key) := by
  intro rs
  induction rs with
  | nil => intro cur pos; simp [recordsIndexAux]
  | cons r rest ih =>
    intro cur pos
    rw [recordsIndexAux]
    split
    · simpa using List.Sublist.cons₂ r.key (ih _ _)
    · exact List.Sublist.cons r.key (ih _ _)

theorem recordsIndex_keys_sublist (bs : Nat) (rs : List Rec) :
    ((recordsIndex bs rs).map Prod.fst).Sublist (rs.map Rec.key) := by
  cases rs with
  | nil => simp [recordsIndex]
  | cons r rest =>
    rw [recordsIndex]
    simpa using List.Sublist.cons₂ r.key (recordsIndexAux_keys_sublist bs rest _ _)

/-- The head of the sparse index of a nonempty record list. -/
theorem recordsIndex_head (bs : Nat) (r : Rec) (rest : List Rec) :
    recordsIndex bs (r :: rest) =
      (r.key, 0) ::
        recordsIndexAux bs (calcsize r.key r.val) (calcsize r.key r.val)
          rest := rfl

/-! ## Sorted-list helpers -/

theorem chainKey_pairwise {α : Type} (f : α → Key) {l : List α}
    (h : List.Chain' (fun a b => keyLt (f a) (f b) = true) l) :
    List.Pairwise (fun a b => keyLt (f a) (f b) = true) l := by
  letI : IsTrans α (fun a b => keyLt (f a) (f b) = true) :=
    ⟨fun _ _ _ hab hbc => keyLt_trans hab hbc⟩
  exact List.chain'_iff_pairwise.mp h

theorem recsSorted_pairwise {rs : List Rec} (h : RecsSorted rs) :
    List.Pairwise (fun a b => keyLt a.key b.key = true) rs :=
  chainKey_pairwise Rec.key h

/-- In a sorted split `pre ++ r :: post`, everything in `pre` is strictly
below `r` and everything in `post` strictly above. -/
theorem sorted_split_bounds {rs pre post : List Rec} {r : Rec}
    (hs : RecsSorted rs) (hsplit : rs = pre ++ r :: post) :
    (∀ x ∈ pre, keyLt x.key r.key = true) ∧
    (∀ x ∈ post, keyLt r.key x.key = true) := by
  have hp := recsSorted_pairwise hs
  rw [hsplit] at hp
  rw [List.pairwise_append] at hp
  constructor
  · intro x hx
    exact hp.2.2 x hx r (by simp)
  · intro x hx
    exact (List.pairwise_cons.mp hp.2.1).1 x hx

/-- A sorted record list has pairwise-distinct keys. -/
theorem sorted_keys_ne {rs : List Rec} (hs : RecsSorted rs) :
    List.Pairwise (fun a b => a.key ≠ b.key) rs :=
  (recsSorted_pairwise hs).imp (fun h => ne_of_keyLt h)

/-! ## Scan-list and semantic-answer bridge -/

theorem segAnswerAux_absent (k : Key) :
    ∀ (rs : List Rec) (off : Nat), (∀ x ∈ rs, x.key ≠ k) →
    segAnswerAux k off rs = none := by
  intro rs
  induction rs with
  | nil => intro off _; rfl
  | cons r rest ih =>
    intro off h
    rw [segAnswerAux, if_neg (by
      simp only [beq_iff_eq]
      exact h r (by simp))]
    exact ih _ (fun x hx => h x (by simp [hx]))

theorem segAnswerAux_split (k : Key) :
    ∀ (pre : List Rec) (r : Rec) (post : List Rec) (off : Nat),
    r.key = k → (∀ x ∈ pre, x.key ≠ k) →
    segAnswerAux k off (pre ++ r :: post) =
      (if r.tomb then none else some (r.val, off + recsSize pre)) := by
  intro pre
  induction pre with
  | nil =>
    intro r post off hk _
    rw [List.nil_append, segAnswerAux, if_pos (by simp [hk])]
    simp [recsSize]
  | cons p ps ih =>
    intro r post off hk hpre
    rw [List.cons_append, segAnswerAux, if_neg (by
      simp only [beq_iff_eq]
      exact hpre p (by simp))]
    rw [ih r post _ hk (fun x hx => hpre x (by simp [hx]))]
    simp [recsSize]
    split
    · rfl
    · simp only [Option.some.injEq, Prod.mk.injEq, true_and]
      omega

theorem scanListB_absent (k : Key) (upper : Option Key) :
    ∀ (rs : List Rec) (base : Nat), (∀ x ∈ rs, x.key ≠ k) →
    scanListB k upper base rs = none := by
  intro rs
  induction rs with
  | nil => intro base _; rfl
  | cons r rest ih =>
    intro base h
    rw [scanListB, if_neg (by
      simp only [Bool.and_eq_true, beq_iff_eq]
      intro hc
      exact h r (by simp) hc.1)]
    split
    · rfl
    · exact ih _ (fun x hx => h x (by simp [hx]))

/-- On a sorted suffix, when the upper bound is at least the probe key, the
scan loop computes the semantic answer: the upper-bound early exit can only
fire strictly beyond every possible record for the key. -/
theorem scanListB_eq_segAnswerAux (k : Key) (upper : Option Key) :
    ∀ (rs : List Rec) (base : Nat), RecsSorted rs →
    (∀ u, upper = some u → keyLt u k = false) →
    scanListB k upper base rs = segAnswerAux k base rs := by
  intro rs
  induction rs with
  | nil => intro base _ _; rfl
  | cons r rest ih =>
    intro base hs hu
    have habs_post : ∀ x ∈ rest, keyLt r.key x.key = true :=
      (sorted_split_bounds hs (show r :: rest = [] ++ r :: rest from rfl)).2
    by_cases hk : r.key = k
    · by_cases ht : r.tomb = true
      · have c1 : ¬((r.key == k && !r.tomb) = true) := by simp [ht]
        have c2 : ¬(upperStop upper r.key = true) := by
          cases hup : upper with
          | none => simp [upperStop]
          | some u => simp [upperStop, hk, hu u hup]
        have c3 : (r.key == k) = true := by simp [hk]
        have habs : ∀ x ∈ rest, x.key ≠ k := by
          intro x hx he
          have h2 := habs_post x hx
          rw [hk, he] at h2
          simp [keyLt_irrefl] at h2
        rw [scanListB, segAnswerAux, if_neg c1, if_neg c2, if_pos c3,
          if_pos ht]
        exact scanListB_absent k upper rest _ habs
      · have c1 : (r.key == k && !r.tomb) = true := by simp [hk, ht]
        have c3 : (r.key == k) = true := by simp [hk]
        rw [scanListB, segAnswerAux, if_pos c1, if_pos c3, if_neg ht]
    · have c1 : ¬((r.key == k && !r.tomb) = true) := by simp [hk]
      have c3 : ¬((r.key == k) = true) := by simp [hk]
      rw [scanListB, segAnswerAux, if_neg c1, if_neg c3]
      by_cases hstop : upperStop upper r.key = true
      · rw [if_pos hstop]
        rcases hup : upper with _ | u
        · rw [hup] at hstop; simp [upperStop] at hstop
        · rw [hup] at hstop
          simp only [upperStop] at hstop
          have huk : keyLt u k = false := hu u hup
          have hkr : keyLt k r.key = true := by
            rcases keyLt_total k u with h1 | h1 | h1
            · exact keyLt_trans h1 hstop
            · rw [h1]; exact hstop
            · rw [h1] at huk; exact absurd huk (by simp)
          symm
          apply segAnswerAux_absent
          intro x hx he
          have hx2 : keyLt k x.key = true := keyLt_trans hkr (habs_post x hx)
          rw [he] at hx2
          simp [keyLt_irrefl] at hx2
      · rw [if_neg hstop]
        exact ih _ hs.tail hu

theorem segAnswerAux_append (k : Key) :
    ∀ (pre suf : List Rec) (off : Nat), (∀ x ∈ pre, x.key ≠ k) →
    segAnswerAux k off (pre ++ suf) =
      segAnswerAux k (off + recsSize pre) suf := by
  intro pre
  induction pre with
  | nil => intro suf off _; simp [recsSize]
  | cons p ps ih =>
    intro suf off h
    rw [List.cons_append, segAnswerAux, if_neg (by
      simp only [beq_iff_eq]
      exact h p (by simp))]
    rw [ih suf _ (fun x hx => h x (by simp [hx]))]
    simp only [recsSize]
    congr 1
    omega

/-- The fallback scan of `_find_item_in_segment` computes the semantically
correct per-segment answer on any well-formed nonempty segment, for every
probe key. -/
theorem find_item_scan_spec (bs : Nat) (rs : List Rec) (k : Key)
    (hwf : ∀ r ∈ rs, RecWF r) (hs : RecsSorted rs) (hne : rs ≠ []) :
    LSMTree.find_item_scan k (encodeRecords rs) (recordsIndex bs rs) =
      .ok (segAnswerAux k 0 rs) := by
  have hkeys_pw : List.Pairwise (fun a b => keyLt a b = true)
      ((recordsIndex bs rs).map Prod.fst) :=
    List.Pairwise.sublist (recordsIndex_keys_sublist bs rs)
      (List.pairwise_map.mpr (recsSorted_pairwise hs))
  have hflen : ¬((encodeRecords rs).length = 0) := by
    rw [encodeRecords_length]
    have := recsSize_pos hne
    omega
  rcases hrs : rs with _ | ⟨r0, rs0⟩
  · exact absurd hrs hne
  subst hrs
  have hks : (recordsIndex bs (r0 :: rs0)).map Prod.fst =
      r0.key :: (recordsIndexAux bs (calcsize r0.key r0.val)
        (calcsize r0.key r0.val) rs0).map Prod.fst := by
    rw [recordsIndex_head]
    simp
  by_cases hp0 : bisectLeft ((recordsIndex bs (r0 :: rs0)).map Prod.fst) k = 0
  · -- position 0: lower = upper = first index key
    have hlow : keyLt r0.key k = false := by
      apply bisectLeft_zero_head _
        ((recordsIndexAux bs (calcsize r0.key r0.val)
          (calcsize r0.key r0.val) rs0).map Prod.fst) k
      rw [← hks]
      exact hp0
    have hp0' : bisectLeft (r0.key ::
        (recordsIndexAux bs (calcsize r0.key r0.val)
          (calcsize r0.key r0.val) rs0).map Prod.fst) k = 0 := by
      rw [← hks]
      exact hp0
    have hfbr : LSMTree.find_block_range_for_key k (recordsIndex bs (r0 :: rs0)) =
        some (some r0.key, some r0.key) := by
      simp only [LSMTree.find_block_range_for_key, hks, hp0']
      norm_num
    have hassoc : assocGet (recordsIndex bs (r0 :: rs0)) r0.key = some 0 := by
      rw [recordsIndex_head, assocGet, if_pos (by simp)]
    simp only [LSMTree.find_item_scan, hfbr, hassoc, if_neg hflen]
    have hrun := find_item_scan_loop_run k (some r0.key) [] (r0 :: rs0)
      hwf (by simp)
    simp only [List.nil_append, encodeRecords, List.length_nil] at hrun
    rw [show (encodeRecord r0.key r0.val r0.tomb ++ encodeRecords rs0) =
      encodeRecords (r0 :: rs0) from rfl] at hrun
    rw [hrun]
    rw [scanListB_eq_segAnswerAux k (some r0.key) (r0 :: rs0) 0 hs
      (fun u hu => by cases hu; exact hlow)]
  · -- position at least 1: lower strictly below the key
    have hp1 : 1 ≤ bisectLeft ((recordsIndex bs (r0 :: rs0)).map Prod.fst) k := by
      omega
    rcases bisectLeft_lower _ k hp1 with ⟨lo, hgetlo, hlok⟩
    have hple := bisectLeft_le_length
      ((recordsIndex bs (r0 :: rs0)).map Prod.fst) k
    have hfbr : LSMTree.find_block_range_for_key k (recordsIndex bs (r0 :: rs0)) =
        some (some lo,
          if bisectLeft ((recordsIndex bs (r0 :: rs0)).map Prod.fst) k ≠
              ((recordsIndex bs (r0 :: rs0)).map Prod.fst).length then
            ((recordsIndex bs (r0 :: rs0)).map Prod.fst).get?
              (bisectLeft ((recordsIndex bs (r0 :: rs0)).map Prod.fst) k)
          else none) := by
      simp only [LSMTree.find_block_range_for_key]
      rw [if_pos ⟨hp1, hple⟩, hgetlo]
    -- the upper bound (if present) is at least the key
    have hupper : ∀ u,
        (if bisectLeft ((recordsIndex bs (r0 :: rs0)).map Prod.fst) k ≠
            ((recordsIndex bs (r0 :: rs0)).map Prod.fst).length then
          ((recordsIndex bs (r0 :: rs0)).map Prod.fst).get?
            (bisectLeft ((recordsIndex bs (r0 :: rs0)).map Prod.fst) k)
        else none) = some u → keyLt u k = false := by
      intro u hu
      by_cases hpe : bisectLeft ((recordsIndex bs (r0 :: rs0)).map Prod.fst) k =
          ((recordsIndex bs (r0 :: rs0)).map Prod.fst).length
      · rw [if_neg (by omega)] at hu
        cases hu
      · rw [if_pos hpe] at hu
        rcases bisectLeft_upper _ k hkeys_pw (by omega) with ⟨hi, hgethi, hhik⟩
        rw [hgethi] at hu
        cases hu
        exact hhik
    -- the lower bound is an index key, pointing at a record boundary
    have hlomem : lo ∈ (recordsIndex bs (r0 :: rs0)).map Prod.fst :=
      List.get?_mem hgetlo
    rcases assocGet_some_of_mem_keys hlomem with ⟨startOff, hgetoff⟩
    rcases recordsIndex_mem bs (r0 :: rs0) lo startOff (assocGet_mem hgetoff)
      with ⟨preL, rL, postL, hsplit, hkeyL, hoffL⟩
    have hpre_lt : ∀ x ∈ preL, keyLt x.key k = true := by
      intro x hx
      have := (sorted_split_bounds hs hsplit).1 x hx
      rw [hkeyL] at this
      exact keyLt_trans this hlok
    have hpre_ne : ∀ x ∈ preL, x.key ≠ k := by
      intro x hx he
      have := hpre_lt x hx
      rw [he] at this
      simp [keyLt_irrefl] at this
    simp only [LSMTree.find_item_scan, hfbr, hgetoff, if_neg hflen]
    have hsufsorted : RecsSorted (rL :: postL) := by
      have h2 : RecsSorted (preL ++ rL :: postL) := by rw [← hsplit]; exact hs
      exact h2.right_of_append
    have hrun := find_item_scan_loop_run k
      (if bisectLeft ((recordsIndex bs (r0 :: rs0)).map Prod.fst) k ≠
          ((recordsIndex bs (r0 :: rs0)).map Prod.fst).length then
        ((recordsIndex bs (r0 :: rs0)).map Prod.fst).get?
          (bisectLeft ((recordsIndex bs (r0 :: rs0)).map Prod.fst) k)
      else none)
      preL (rL :: postL)
      (by
        intro x hx
        apply hwf
        rw [hsplit]
        exact List.mem_append.mpr (Or.inr hx))
      (by simp)
    rw [← hsplit] at hrun
    rw [show (encodeRecords preL).length = startOff from by
      rw [encodeRecords_length, hoffL]] at hrun
    rw [hrun]
    rw [scanListB_eq_segAnswerAux k _ (rL :: postL) startOff hsufsorted hupper]
    rw [hsplit, segAnswerAux_append k preL (rL :: postL) 0 hpre_ne]
    rw [show 0 + recsSize preL = startOff from by omega]

/-- `_find_item_in_segment` on a well-formed nonempty segment computes the
semantically correct per-segment answer for every probe key. -/
theorem find_item_in_segment_spec (bs : Nat) (rs : List Rec) (k : Key)
    (hwf : ∀ r ∈ rs, RecWF r) (hs : RecsSorted rs) (hne : rs ≠ []) :
    LSMTree.find_item_in_segment k (encodeRecords rs, recordsIndex bs rs) =
      .ok (segAnswerAux k 0 rs) := by
  cases hg : assocGet (recordsIndex bs rs) k with
  | none =>
    simp only [LSMTree.find_item_in_segment, hg]
    exact find_item_scan_spec bs rs k hwf hs hne
  | some o =>
    rcases recordsIndex_mem bs rs k o (assocGet_mem hg)
      with ⟨pre, r, post, hsplit, hkey, hoff⟩
    have hpre_ne : ∀ x ∈ pre, x.key ≠ k := by
      intro x hx he
      have := (sorted_split_bounds hs hsplit).1 x hx
      rw [hkey, he] at this
      simp [keyLt_irrefl] at this
    have hread : LSMTree.read_item_from_disk (encodeRecords rs) o =
        .ok (r, o + calcsize r.key r.val) := by
      rw [hsplit, show o = (encodeRecords pre).length from by
        rw [encodeRecords_length, hoff]]
      exact read_item_encodeRecords pre r post (by
        apply hwf
        rw [hsplit]
        exact List.mem_append.mpr (Or.inr (by simp)))
    simp only [LSMTree.find_item_in_segment, hg, hread]
    by_cases ht : r.tomb = true
    · rw [if_neg (by simp [ht])]
      exact find_item_scan_spec bs rs k hwf hs hne
    · rw [if_pos (by simp [ht])]
      rw [hsplit, segAnswerAux_split k pre r post 0 hkey hpre_ne,
        if_neg ht]
      rw [show 0 + recsSize pre = o from by omega]

/-! ## Memtable operations -/

theorem assocGet_assocSet_self {α : Type} (m : List (Key × α)) (k : Key)
    (v : α) : assocGet (assocSet m k v) k = some v := by
  induction m with
  | nil => simp [assocSet, assocGet]
  | cons p ps ih =>
    rw [assocSet]
    by_cases h1 : keyLt k p.1 = true
    · rw [if_pos h1]
      simp [assocGet]
    · rw [if_neg h1]
      by_cases h2 : (k == p.1) = true
      · rw [if_pos h2]
        simp [assocGet]
      · rw [if_neg h2]
        rw [assocGet, if_neg h2]
        exact ih

theorem assocSet_subset {α : Type} (m : List (Key × α)) (k : Key) (v : α) :
    ∀ x ∈ assocSet m k v, x = (k, v) ∨ x ∈ m := by
  induction m with
  | nil => intro x hx; simp [assocSet] at hx; simp [hx]
  | cons p ps ih =>
    intro x hx
    rw [assocSet] at hx
    by_cases h1 : keyLt k p.1 = true
    · rw [if_pos h1] at hx
      rcases List.mem_cons.mp hx with rfl | hx2
      · exact Or.inl rfl
      · exact Or.inr hx2
    · rw [if_neg h1] at hx
      by_cases h2 : (k == p.1) = true
      · rw [if_pos h2] at hx
        rcases List.mem_cons.mp hx with rfl | hx2
        · exact Or.inl rfl
        · exact Or.inr (List.mem_cons_of_mem _ hx2)
      · rw [if_neg h2] at hx
        rcases List.mem_cons.mp hx with rfl | hx2
        · exact Or.inr (by simp)
        · rcases ih x hx2 with h | h
          · exact Or.inl h
          · exact Or.inr (List.mem_cons_of_mem _ h)

theorem entriesSorted_iff_pairwise {es : List (Key × Value)} :
    EntriesSorted es ↔
      List.Pairwise (fun a b => keyLt a.1 b.1 = true) es := by
  letI : IsTrans (Key × Value) (fun a b => keyLt a.1 b.1 = true) :=
    ⟨fun _ _ _ hab hbc => keyLt_trans hab hbc⟩
  exact List.chain'_iff_pairwise

theorem recsSorted_iff_pairwise {rs : List Rec} :
    RecsSorted rs ↔
      List.Pairwise (fun a b => keyLt a.key b.key = true) rs := by
  letI : IsTrans Rec (fun a b => keyLt a.key b.key = true) :=
    ⟨fun _ _ _ hab hbc => keyLt_trans hab hbc⟩
  exact List.chain'_iff_pairwise

/-- Inserting into a sorted dict keeps it sorted. -/
theorem assocSet_sorted (m : Memtable) (k : Key) (v : Value)
    (hs : EntriesSorted m) : EntriesSorted (assocSet m k v) := by
  rw [entriesSorted_iff_pairwise] at hs ⊢
  induction m with
  | nil => simp [assocSet]
  | cons p ps ih =>
    rw [assocSet]
    by_cases h1 : keyLt k p.1 = true
    · rw [if_pos h1]
      refine List.Pairwise.cons ?_ hs
      intro x hx
      rcases List.mem_cons.mp hx with rfl | hx2
      · exact h1
      · exact keyLt_trans h1 ((List.pairwise_cons.mp hs).1 x hx2)
    · rw [if_neg h1]
      by_cases h2 : (k == p.1) = true
      · rw [if_pos h2]
        refine List.Pairwise.cons ?_ hs.of_cons
        intro x hx
        have hk : k = p.1 := by simpa using h2
        rw [hk]
        exact (List.pairwise_cons.mp hs).1 x hx
      · rw [if_neg h2]
        refine List.Pairwise.cons ?_ (ih hs.of_cons)
        intro x hx
        rcases assocSet_subset ps k v x hx with rfl | hx2
        · have hk : k ≠ p.1 := by simpa using h2
          have h1f : keyLt k p.1 = false := by
            cases hx1 : keyLt k p.1
            · rfl
            · exact absurd hx1 h1
          simpa using keyLt_of_ne_of_not_lt hk h1f
        · exact (List.pairwise_cons.mp hs).1 x hx2

/-- Sorted entries, filtered and turned into records, are sorted records. -/
theorem recsOf_filterNS_sorted (es : List (Key × Value))
    (hs : EntriesSorted es) : RecsSorted (recsOf (filterNS es)) := by
  rw [recsSorted_iff_pairwise]
  rw [entriesSorted_iff_pairwise] at hs
  have h1 : List.Pairwise (fun a b => keyLt a.1 b.1 = true) (filterNS es) :=
    List.Pairwise.sublist (List.filter_sublist es) hs
  exact List.pairwise_map.mpr h1

theorem recsOf_filterNS_wf (es : List (Key × Value)) (hw : EntriesWF es) :
    ∀ r ∈ recsOf (filterNS es), RecWF r := by
  intro r hr
  rcases List.mem_map.mp hr with ⟨e, he, hre⟩
  have := hw e (List.mem_of_mem_filter he)
  rw [← hre]
  exact ⟨this.1, this.2⟩

theorem mem_filterNS {es : List (Key × Value)} {e : Key × Value} :
    e ∈ filterNS es ↔ e ∈ es ∧ e.2 ≠ tombstoneSentinel := by
  simp [filterNS, List.mem_filter]

/-! ## Semantic answers versus liveness -/

theorem segAnswerAux_none_iff (k : Key) :
    ∀ (rs : List Rec) (off : Nat),
    List.Pairwise (fun a b => a.key ≠ b.key) rs →
    (segAnswerAux k off rs = none ↔
      ∀ r ∈ rs, ¬(r.key = k ∧ r.tomb = false)) := by
  intro rs
  induction rs with
  | nil => intro off _; simp [segAnswerAux]
  | cons r rest ih =>
    intro off hpw
    rw [segAnswerAux]
    by_cases hk : (r.key == k) = true
    · rw [if_pos hk]
      have hkk : r.key = k := by simpa using hk
      by_cases ht : r.tomb = true
      · rw [if_pos ht]
        refine ⟨fun _ q hq => ?_, fun _ => rfl⟩
        rcases List.mem_cons.mp hq with rfl | hq2
        · rintro ⟨_, hc⟩
          rw [ht] at hc
          cases hc
        · rintro ⟨hqk, _⟩
          have hne := (List.pairwise_cons.mp hpw).1 q hq2
          rw [hkk, hqk] at hne
          exact hne rfl
      · rw [if_neg ht]
        constructor
        · intro hc
          cases hc
        · intro hall
          exact absurd ⟨hkk, by
            cases htt : r.tomb
            · rfl
            · exact absurd htt ht⟩ (hall r (by simp))
    · rw [if_neg hk]
      have hkk : r.key ≠ k := by simpa using hk
      rw [ih _ hpw.of_cons]
      constructor
      · intro h q hq
        rcases List.mem_cons.mp hq with rfl | hq2
        · rintro ⟨hqk, _⟩
          exact hkk hqk
        · exact h q hq2
      · intro h q hq
        exact h q (List.mem_cons_of_mem _ hq)

theorem segHasLive_encode (bs : Nat) (rs : List Rec) (k : Key)
    (hwf : ∀ r ∈ rs, RecWF r) :
    segHasLive (encodeRecords rs, recordsIndex bs rs) k =
      rs.any (fun r => r.key == k && !r.tomb) := by
  simp [segHasLive, read_all_records_encode rs hwf]

theorem any_live_eq_false_iff (rs : List Rec) (k : Key) :
    rs.any (fun r => r.key == k && !r.tomb) = false ↔
      ∀ r ∈ rs, ¬(r.key = k ∧ r.tomb = false) := by
  rw [List.any_eq_false]
  constructor
  · intro h r hr ⟨h1, h2⟩
    have := h r hr
    simp [h1, h2] at this
  · intro h r hr
    have := h r hr
    cases hk : (r.key == k)
    · simp [hk]
    · cases ht : r.tomb
      · exact absurd ⟨by simpa using hk, ht⟩ this
      · simp [ht]

/-! ## `delete`'s segment scan under well-formedness -/

theorem mark_ok (rs : List Rec) (hne : rs ≠ []) (off : Nat) :
    ∃ file2, LSMTree.mark_item_as_tombstoned (encodeRecords rs) off =
      .ok file2 := by
  have hlen : 4 ≤ (encodeRecords rs).length := by
    rw [encodeRecords_length]
    rcases rs with _ | ⟨r, rest⟩
    · exact absurd rfl hne
    · have := calcsize_ge_ten r.key r.val
      simp only [recsSize]
      omega
  have hrb : readBytes (encodeRecords rs) 0 4 =
      some (((encodeRecords rs).drop 0).take 4) := by
    rw [readBytes, if_pos (by omega)]
  simp only [LSMTree.mark_item_as_tombstoned, hrb]
  split
  · exact ⟨_, rfl⟩
  · exact ⟨_, rfl⟩

/-- On a list of well-formed segments, `delete`'s reverse scan never raises,
and it falls through with `None` exactly when no segment has a live record
for the key. -/
theorem delete_scan_wf (bs : Nat) (k : Key) :
    ∀ (segs : List Segment), (∀ seg ∈ segs, WFSegment bs seg) →
    (∃ res, LSMTree.delete_scan k segs = .ok res) ∧
    (LSMTree.delete_scan k segs = .ok none ↔
      ∀ seg ∈ segs, segHasLive seg k = false) := by
  intro segs
  induction segs with
  | nil =>
    intro _
    exact ⟨⟨none, rfl⟩, by simp [LSMTree.delete_scan]⟩
  | cons seg rest ih =>
    intro hwfs
    rcases hwfs seg (by simp) with ⟨rs, hwf, hs, hne, hseg⟩
    subst hseg
    have hfind := find_item_in_segment_spec bs rs k hwf hs hne
    have hlive := segHasLive_encode bs rs k hwf
    rcases ih (fun s hsm => hwfs s (by simp [hsm])) with ⟨⟨res, hres⟩, hiff⟩
    by_cases hsa : segAnswerAux k 0 rs = none
    · have hlf : segHasLive (encodeRecords rs, recordsIndex bs rs) k = false := by
        rw [hlive]
        rw [any_live_eq_false_iff]
        exact (segAnswerAux_none_iff k rs 0 (sorted_keys_ne hs)).mp hsa
      rcases res with _ | r2
      · have heq : LSMTree.delete_scan k
            ((encodeRecords rs, recordsIndex bs rs) :: rest) = .ok none := by
          simp only [LSMTree.delete_scan, hfind, hsa, hres]
        refine ⟨⟨none, heq⟩, ?_⟩
        constructor
        · intro _ s hsm
          rcases List.mem_cons.mp hsm with rfl | hsm2
          · exact hlf
          · exact hiff.mp hres s hsm2
        · intro _
          exact heq
      · have heq : LSMTree.delete_scan k
            ((encodeRecords rs, recordsIndex bs rs) :: rest) =
            .ok (some ((encodeRecords rs, recordsIndex bs rs) :: r2)) := by
          simp only [LSMTree.delete_scan, hfind, hsa, hres]
        refine ⟨⟨_, heq⟩, ?_⟩
        constructor
        · intro hc
          rw [heq] at hc
          simp at hc
        · intro hall
          have h0 := hiff.mpr (fun s hsm => hall s (by simp [hsm]))
          rw [hres] at h0
          simp at h0
    · rcases hx : segAnswerAux k 0 rs with _ | ⟨v, off⟩
      · exact absurd hx hsa
      · have hlt : segHasLive (encodeRecords rs, recordsIndex bs rs) k = true := by
          rw [hlive]
          cases hany : rs.any (fun r => r.key == k && !r.tomb)
          · exfalso
            apply hsa
            rw [segAnswerAux_none_iff k rs 0 (sorted_keys_ne hs)]
            exact (any_live_eq_false_iff rs k).mp hany
          · rfl
        rcases mark_ok rs hne off with ⟨file2, hmark⟩
        have heq : LSMTree.delete_scan k
            ((encodeRecords rs, recordsIndex bs rs) :: rest) =
            .ok (some ((file2, recordsIndex bs rs) :: rest)) := by
          simp only [LSMTree.delete_scan, hfind, hx, hmark]
        refine ⟨⟨_, heq⟩, ?_⟩
        constructor
        · intro hc
          rw [heq] at hc
          simp at hc
        · intro hall
          have := hall (encodeRecords rs, recordsIndex bs rs) (by simp)
          rw [hlt] at this
          cases this

/-- Any failing `delete` leaves the engine state exactly as it was. -/
theorem delete_fail_unchanged (t : LSMTree) (k : Key) (e : Err)
    (h : (t.delete k).1 = some e) : (t.delete k).2 = t := by
  rw [LSMTree.delete] at h ⊢
  by_cases hc : assocContains t._memtable k = true
  · rw [if_pos hc] at h
    cases h
  · rw [if_neg hc] at h ⊢
    rcases hscan : LSMTree.delete_scan k t._data_segments.reverse
      with e2 | res
    · rfl
    · rcases res with _ | r2
      · rfl
      · rw [hscan] at h
        simp at h

/-! ## Flush of an all-tombstone memtable -/

theorem write_step_sentinel (bs : Nat)
    (st : List Nat × List (Key × Nat) × Nat × Bool) (e : Key × Value)
    (h : e.2 = tombstoneSentinel) : LSMTree.write_step bs st e = st := by
  rcases st with ⟨F, O, c, fl⟩
  simp [LSMTree.write_step, h]

theorem write_dict_all_sentinel (bs : Nat) (es : List (Key × Value))
    (h : ∀ e ∈ es, e.2 = tombstoneSentinel) :
    LSMTree.write_dict_to_data_segment bs es = ([], []) := by
  have : ∀ (st : List Nat × List (Key × Nat) × Nat × Bool),
      es.foldl (LSMTree.write_step bs) st = st := by
    induction es with
    | nil => intro st; rfl
    | cons e rest ih =>
      intro st
      rw [List.foldl_cons, write_step_sentinel bs st e (h e (by simp))]
      exact ih (fun x hx => h x (by simp [hx])) st
  rw [LSMTree.write_dict_to_data_segment, this]

theorem find_block_range_empty (k : Key) :
    LSMTree.find_block_range_for_key k [] = none := by
  simp [LSMTree.find_block_range_for_key, bisectLeft]

theorem find_item_empty_segment (k : Key) :
    LSMTree.find_item_in_segment k ([], []) = .error .indexError := by
  simp [LSMTree.find_item_in_segment, assocGet, LSMTree.find_item_scan,
    find_block_range_empty]

/-! ## Bridge between the writer's index and the spec's block description -/

theorem headD_append_left (curBlock : List Rec) (r : Rec)
    (h : curBlock ≠ []) :
    (curBlock ++ [r]).headD recDflt = curBlock.headD recDflt := by
  cases curBlock with
  | nil => exact absurd rfl h
  | cons x xs => rfl

theorem specIndex_bridge (bs : Nat) :
    ∀ (rs curBlock : List Rec) (pos0 : Nat), curBlock ≠ [] →
    specIndexAux pos0 (specBlocksAux bs curBlock (recsSize curBlock) rs) =
      ((curBlock.headD recDflt).key, pos0) ::
        recordsIndexAux bs (recsSize curBlock)
          (pos0 + recsSize curBlock) rs := by
  intro rs
  induction rs with
  | nil =>
    intro curBlock pos0 _
    simp [specBlocksAux, specIndexAux, recordsIndexAux]
  | cons r rest ih =>
    intro curBlock pos0 hne
    rw [specBlocksAux, recordsIndexAux]
    by_cases hgt : recsSize curBlock + calcsize r.key r.val > bs
    · rw [if_pos hgt, if_pos hgt]
      rw [specIndexAux]
      have hr1 : recsSize [r] = calcsize r.key r.val := by simp [recsSize]
      have := ih [r] (pos0 + recsSize curBlock) (by simp)
      rw [hr1] at this
      rw [this]
      simp [recsSize]
    · rw [if_neg hgt, if_neg hgt]
      have hsz : recsSize (curBlock ++ [r]) =
          recsSize curBlock + calcsize r.key r.val := by
        rw [recsSize_append]
        simp [recsSize]
      have := ih (curBlock ++ [r]) pos0 (by simp)
      rw [hsz] at this
      rw [this, headD_append_left curBlock r hne]
      congr 2
      omega

theorem recordsIndex_eq_specIndex (bs : Nat) (rs : List Rec) :
    recordsIndex bs rs = specIndexAux 0 (specBlocks bs rs) := by
  cases rs with
  | nil => rfl
  | cons r rest =>
    rw [recordsIndex, specBlocks]
    have hr1 : recsSize [r] = calcsize r.key r.val := by simp [recsSize]
    have := specIndex_bridge bs rest [r] 0 (by simp)
    rw [hr1] at this
    rw [this]
    simp [recDflt]

theorem specBlocksAux_join (bs : Nat) :
    ∀ (rs curBlock : List Rec) (cur : Nat),
    (specBlocksAux bs curBlock cur rs).join = curBlock ++ rs := by
  intro rs
  induction rs with
  | nil => intro curBlock cur; simp [specBlocksAux]
  | cons r rest ih =>
    intro curBlock cur
    rw [specBlocksAux]
    split
    · simp [ih [r] (calcsize r.key r.val)]
    · simp [ih (curBlock ++ [r]) (cur + calcsize r.key r.val)]

theorem specBlocks_join (bs : Nat) (rs : List Rec) :
    (specBlocks bs rs).join = rs := by
  cases rs with
  | nil => rfl
  | cons r rest =>
    rw [specBlocks, specBlocksAux_join]
    simp

/-! ## The private being-flushed slot is never written -/

theorem put_preserves_private_slot (t : LSMTree) (k : Key) (v : Value) :
    (t.put k v)._memtable_being_flushed = t._memtable_being_flushed := rfl

theorem flush_preserves_private_slot (t : LSMTree) :
    t.flush_memtable._memtable_being_flushed = t._memtable_being_flushed :=
  rfl

theorem delete_preserves_private_slot (t : LSMTree) (k : Key) :
    (t.delete k).2._memtable_being_flushed = t._memtable_being_flushed := by
  rw [LSMTree.delete]
  split
  · rfl
  · rcases LSMTree.delete_scan k t._data_segments.reverse with e | res
    · rfl
    · rcases res with _ | r2
      · rfl
      · rfl

theorem compact_preserves_private_slot (t : LSMTree) :
    t.merge_and_compact.2._memtable_being_flushed =
      t._memtable_being_flushed := by
  rw [LSMTree.merge_and_compact]
  split
  · rcases LSMTree.merge_all [] t._data_segments with e | merged
    · rfl
    · rfl
  · rfl

/-! ## Helper: map of the semantic answer versus `find?` over the records -/

theorem segAnswerAux_map_fst (k : Key) :
    ∀ (rs : List Rec) (off : Nat),
    (segAnswerAux k off rs).map Prod.fst =
      (match rs.find? (fun r => r.key == k) with
       | some r => if r.tomb then none else some r.val
       | none => none) := by
  intro rs
  induction rs with
  | nil => intro off; rfl
  | cons r rest ih =>
    intro off
    by_cases hk : (r.key == k) = true
    · rw [segAnswerAux, if_pos hk]
      simp only [List.find?_cons, hk]
      by_cases ht : r.tomb = true
      · rw [if_pos ht, if_pos ht]
        rfl
      · rw [if_neg ht, if_neg ht]
        rfl
    · have hkf : (r.key == k) = false := by
        cases hx : (r.key == k)
        · rfl
        · exact absurd hx hk
      rw [segAnswerAux, if_neg hk]
      simp only [List.find?_cons, hkf]
      exact ih _

theorem entries_pairwise_ne {es : List (Key × Value)} (hs : EntriesSorted es) :
    List.Pairwise (fun a b => a.1 ≠ b.1) es :=
  (entriesSorted_iff_pairwise.mp hs).imp (fun h => ne_of_keyLt h)

theorem entriesSorted_singleton (e : Key × Value) : EntriesSorted [e] :=
  List.chain'_singleton e

theorem entriesSorted_pair (e1 e2 : Key × Value)
    (h : keyLt e1.1 e2.1 = true) : EntriesSorted [e1, e2] :=
  List.chain'_cons.mpr ⟨h, List.chain'_singleton e2⟩

theorem recsSorted_singleton (r : Rec) : RecsSorted [r] :=
  List.chain'_singleton r

/-- A generic evaluation of `_find_block_range_for_key` when the insertion
point is positive. -/
theorem fbr_pos (offs : List (Key × Nat)) (k lo : Key)
    (hp1 : 1 ≤ bisectLeft (offs.map Prod.fst) k)
    (hlo : (offs.map Prod.fst).get? (bisectLeft (offs.map Prod.fst) k - 1) =
      some lo) :
    LSMTree.find_block_range_for_key k offs =
      some (some lo,
        if bisectLeft (offs.map Prod.fst) k ≠ (offs.map Prod.fst).length then
          (offs.map Prod.fst).get? (bisectLeft (offs.map Prod.fst) k)
        else none) := by
  simp only [LSMTree.find_block_range_for_key]
  rw [if_pos ⟨hp1, bisectLeft_le_length _ _⟩, hlo]

/-- A generic evaluation of `_find_block_range_for_key` when the insertion
point is zero and the index is nonempty: both bounds are the first index
key. -/
theorem fbr_zero (offs : List (Key × Nat)) (k k0 : Key) (ktail : List Key)
    (hks : offs.map Prod.fst = k0 :: ktail)
    (hp0 : bisectLeft (offs.map Prod.fst) k = 0) :
    LSMTree.find_block_range_for_key k offs = some (some k0, some k0) := by
  have hp0' : bisectLeft (k0 :: ktail) k = 0 := by rw [← hks]; exact hp0
  simp only [LSMTree.find_block_range_for_key, hks, hp0']
  norm_num

/-- Claim C1 (code bug): on a fresh engine, `put` of the supported value `0`
followed by `get` of the same key returns absent, not `0`: the Python `or`
in `get` discards falsy memtable hits.  The claim promises `get(k) = v` for
every supported `v` after `put(k, v)` with no interleaved writes; the
evaluation below shows the code violating it at `v = 0`. -/
theorem C1_falsy_put_get_eval :
    (initialState.put [97] (.int 0)).get [97] = .ok none ∧
    (Value.int 0).supported ∧ Value.int 0 ≠ tombstoneSentinel ∧
    (Value.int 0).truthy = false := by
  decide

/-- Claim C2 (code bug): `delete` of a key whose newest record lives in the
newest segment marks that record's tombstone in place, but `get` cannot tell
a tombstoned hit from a miss, so it falls through to the older segment and
returns the superseded value `1` - immediately after a successful delete,
with no flush in between.  The claim promises `get(k)` absent after
`delete(k)` until a new `put`. -/
theorem C2_delete_then_get_eval :
    (let t := ((((initialState.put [97] (.int 1)).flush_memtable).put [97]
        (.int 2)).flush_memtable);
     (t.delete [97]).1 = none ∧
     ((t.delete [97]).2).get [97] = .ok (some (.int 1))) := by
  decide

/-- Claim C3 (counterexample): the tombstone sentinel is the plain string
used by `delete`, so `put` of that very string is treated as a deletion
(`get` absent, entry skipped by the segment writer), and `put` of the falsy
value `0` also makes `get` absent while in the memtable. -/
theorem C3_cx :
    (initialState.put [107] tombstoneSentinel).get [107] = .ok none ∧
    LSMTree.write_dict_to_data_segment 4096 [([107], tombstoneSentinel)] =
      ([], []) ∧
    (initialState.put [97] (.int 0)).get [97] = .ok none := by
  decide

/-- Claim C3 (amended): for every supported user value other than the
tombstone string, the entry is never skipped when the memtable is flushed
(the written segment file decodes to exactly the non-sentinel entries, the
probe entry among them); and for every such value that is additionally
truthy (not `0`, `0.0`, or the empty string), `put(k, v)` does not make
`get(k)` absent: `get(k)` returns `v` from any prior state. -/
theorem C3_thm :
    (∀ (t : LSMTree) (k : Key) (v : Value), v.truthy = true →
       v ≠ tombstoneSentinel → (t.put k v).get k = .ok (some v)) ∧
    (∀ (bs : Nat) (es : List (Key × Value)) (k : Key) (v : Value),
       EntriesSorted es → EntriesWF es → (k, v) ∈ es →
       v ≠ tombstoneSentinel →
       LSMTree.read_all_records
           (LSMTree.write_dict_to_data_segment bs es).1 =
         .ok (recsOf (filterNS es)) ∧
       (⟨k, v, false⟩ : Rec) ∈ recsOf (filterNS es)) := by
  constructor
  · intro t k v htr hns
    have hg : assocGet (t.put k v)._memtable k = some v := by
      show assocGet (assocSet t._memtable k v) k = some v
      exact assocGet_assocSet_self t._memtable k v
    rw [LSMTree.get, if_neg (by
      rw [hg]
      simp [hns]), hg]
    simp [pyOr, htr]
  · intro bs es k v hs hw hmem hns
    have hfile : (LSMTree.write_dict_to_data_segment bs es).1 =
        encodeRecords (recsOf (filterNS es)) := by
      rw [write_dict_spec bs es (entries_pairwise_ne hs)]
    constructor
    · rw [hfile]
      exact read_all_records_encode _ (recsOf_filterNS_wf es hw)
    · exact List.mem_map.mpr ⟨(k, v), mem_filterNS.mpr ⟨hmem, hns⟩, rfl⟩

/-- Claim C3 (witness). -/
theorem C3_witness :
    (initialState.put [97] (.int 7)).get [97] = .ok (some (.int 7)) ∧
    (⟨[97], Value.int 7, false⟩ : Rec) ∈
      recsOf (filterNS [([97], Value.int 7)]) :=
  ⟨C3_thm.1 initialState [97] (.int 7) (by decide) (by decide),
   (C3_thm.2 4096 [([97], Value.int 7)] [97] (.int 7)
     (entriesSorted_singleton _) (by decide) (by decide) (by decide)).2⟩

/-- Claim C4 (counterexample): with sparse index keys `["b"]` and probe key
`"a"`, the block-range computation returns both bounds present with
`lower = "b"`, which is strictly greater than the key: the claimed
`lower ≤ key` fails. -/
theorem C4_cx :
    LSMTree.find_block_range_for_key [97] [([98], 0)] =
      some (some [98], some [98]) ∧
    keyLe [98] [97] = false := by
  decide

/-- Claim C4 (amended): on a sorted sparse index, when both bounds are
present they satisfy `lower ≤ key ≤ upper` whenever the key is at least the
first index key; when the key precedes the first index key, both bounds
equal that first key instead.  And on every segment the writer produces
from a sorted supported mapping with at least one non-tombstone entry, the
lookup's final decision (value or absent, errors included) equals that of a
full linear scan of the segment's records. -/
theorem C4_thm :
    (∀ (offs : List (Key × Nat)) (k lo hi : Key),
       List.Pairwise (fun a b => keyLt a b = true) (offs.map Prod.fst) →
       LSMTree.find_block_range_for_key k offs = some (some lo, some hi) →
       (keyLt k ((offs.map Prod.fst).headD []) = false →
          keyLe lo k = true ∧ keyLe k hi = true) ∧
       (keyLt k ((offs.map Prod.fst).headD []) = true →
          lo = (offs.map Prod.fst).headD [] ∧
          hi = (offs.map Prod.fst).headD [])) ∧
    (∀ (bs : Nat) (es : List (Key × Value)) (k : Key),
       EntriesSorted es → EntriesWF es → recsOf (filterNS es) ≠ [] →
       Except.map (Option.map Prod.fst)
           (LSMTree.find_item_in_segment k
             (LSMTree.write_dict_to_data_segment bs es)) =
         linearScanDecision k (LSMTree.write_dict_to_data_segment bs es).1) := by
  constructor
  · intro offs k lo hi hpw hfbr
    rcases hoffs : offs.map Prod.fst with _ | ⟨k0, ktail⟩
    · rcases offs with _ | ⟨p, ps⟩
      · rw [show LSMTree.find_block_range_for_key k [] = none from by
          simp [LSMTree.find_block_range_for_key, bisectLeft]] at hfbr
        cases hfbr
      · simp at hoffs
    · by_cases hp0 : bisectLeft (offs.map Prod.fst) k = 0
      · have hcomp := fbr_zero offs k k0 ktail hoffs hp0
        rw [hcomp] at hfbr
        simp only [Option.some.injEq, Prod.mk.injEq] at hfbr
        obtain ⟨hlo, hhi⟩ := hfbr
        subst hlo
        subst hhi
        have hk0k : keyLt k0 k = false := by
          rw [hoffs] at hp0
          exact bisectLeft_zero_head k0 ktail k hp0
        constructor
        · intro hklt
          simp only [List.headD_cons] at hklt
          have hk0 : k0 = k := by
            rcases keyLt_total k0 k with h1 | h1 | h1
            · rw [h1] at hk0k; cases hk0k
            · exact h1
            · rw [h1] at hklt; cases hklt
          subst hk0
          simp [keyLe]
        · intro _
          simp only [List.headD_cons]
          simp
      · have hp1 : 1 ≤ bisectLeft (offs.map Prod.fst) k := by omega
        rcases bisectLeft_lower _ k hp1 with ⟨lo2, hget2, hlt2⟩
        have hcomp := fbr_pos offs k lo2 hp1 hget2
        rw [hcomp] at hfbr
        simp only [Option.some.injEq, Prod.mk.injEq] at hfbr
        obtain ⟨hlo, hhiget⟩ := hfbr
        subst hlo
        have hhik : keyLt hi k = false := by
          by_cases hpe : bisectLeft (offs.map Prod.fst) k =
              (offs.map Prod.fst).length
          · rw [if_neg (by omega)] at hhiget
            cases hhiget
          · rw [if_pos hpe] at hhiget
            rcases bisectLeft_upper _ k hpw (by
              have := bisectLeft_le_length (offs.map Prod.fst) k
              omega) with ⟨hi2, hget3, hge3⟩
            rw [hget3] at hhiget
            injection hhiget with h4
            rw [← h4]
            exact hge3
        constructor
        · intro _
          constructor
          · simp [keyLe, hlt2]
          · rcases keyLt_total k hi with h1 | h1 | h1
            · simp [keyLe, h1]
            · simp [keyLe, h1]
            · rw [h1] at hhik
              cases hhik
        · intro hklt
          simp only [List.headD_cons] at hklt
          have hk0lt : keyLt k0 k = true := by
            have hp1x : 1 ≤ bisectLeft (k0 :: ktail) k := by
              rw [← hoffs]
              exact hp1
            rw [bisectLeft] at hp1x
            by_cases hx : keyLt k0 k = true
            · exact hx
            · rw [if_neg hx] at hp1x
              omega
          have hcontra := keyLt_trans hklt hk0lt
          rw [keyLt_irrefl] at hcontra
          cases hcontra
  · intro bs es k hs hw hne
    have hwd := write_dict_spec bs es (entries_pairwise_ne hs)
    rw [hwd]
    rw [find_item_in_segment_spec bs (recsOf (filterNS es)) k
      (recsOf_filterNS_wf es hw) (recsOf_filterNS_sorted es hs) hne]
    rw [show (encodeRecords (recsOf (filterNS es)),
        recordsIndex bs (recsOf (filterNS es))).1 =
      encodeRecords (recsOf (filterNS es)) from rfl]
    rw [linearScanDecision,
      read_all_records_encode _ (recsOf_filterNS_wf es hw)]
    rw [show Except.map (Option.map Prod.fst)
        (Except.ok (segAnswerAux k 0 (recsOf (filterNS es))) :
          Except Err (Option (Value × Nat))) =
      Except.ok ((segAnswerAux k 0 (recsOf (filterNS es))).map Prod.fst)
      from rfl]
    rw [segAnswerAux_map_fst k _ 0]

/-- Claim C4 (witness). -/
theorem C4_witness :
    ((keyLt [98] (([([97], 0), ([99], 3)].map Prod.fst).headD []) = false →
        keyLe [97] [98] = true ∧ keyLe [98] [99] = true) ∧
     (keyLt [98] (([([97], 0), ([99], 3)].map Prod.fst).headD []) = true →
        [97] = ([([97], 0), ([99], 3)].map Prod.fst).headD [] ∧
        [99] = ([([97], 0), ([99], 3)].map Prod.fst).headD [])) ∧
    Except.map (Option.map Prod.fst)
        (LSMTree.find_item_in_segment [97]
          (LSMTree.write_dict_to_data_segment 4096 [([97], Value.int 1)])) =
      linearScanDecision [97]
        (LSMTree.write_dict_to_data_segment 4096 [([97], Value.int 1)]).1 :=
  ⟨C4_thm.1 [([97], 0), ([99], 3)] [98] [97] [99] (by decide) (by decide),
   C4_thm.2 4096 [([97], Value.int 1)] [97] (entriesSorted_singleton _)
     (by decide) (by decide)⟩

/-- Claim C5 (counterexample): for the supported string value that happens
to equal the tombstone sentinel, `put(k, v); flush; get(k)` does not return
`v` - the writer skips the entry, the flushed segment has an empty sparse
index, and `get` raises `IndexError`. -/
theorem C5_cx :
    ((initialState.put [107] tombstoneSentinel).flush_memtable).get [107] =
      .error .indexError ∧ tombstoneSentinel.supported := by
  decide

/-- Claim C5 (amended): for every key and every supported value other than
the tombstone string - signed 32-bit integer, 64-bit float (carried as its
exact bit pattern), or string - `put(k, v); flush; get(k)` returns exactly
`v`, with its kind preserved (the returned `Value` is `v` itself), from any
engine state whose live memtable is sorted with supported entries and whose
private being-flushed slot is empty (as it always is - see the C10
theorem). -/
theorem C5_thm (t : LSMTree) (k : Key) (v : Value)
    (hms : EntriesSorted t._memtable) (hmw : EntriesWF t._memtable)
    (hpriv : t._memtable_being_flushed = [])
    (hk : k.length < 2 ^ 32) (hv : v.supported)
    (hns : v ≠ tombstoneSentinel) :
    ((t.put k v).flush_memtable).get k = .ok (some v) := by
  have hsorted : EntriesSorted (assocSet t._memtable k v) :=
    assocSet_sorted t._memtable k v hms
  have hwf : EntriesWF (assocSet t._memtable k v) := by
    intro e he
    rcases assocSet_subset t._memtable k v e he with rfl | hem
    · exact ⟨hk, hv⟩
    · exact hmw e hem
  have hmem : (k, v) ∈ assocSet t._memtable k v :=
    assocGet_mem (assocGet_assocSet_self t._memtable k v)
  have hrec : (⟨k, v, false⟩ : Rec) ∈ recsOf (filterNS (assocSet t._memtable k v)) :=
    List.mem_map.mpr ⟨(k, v), mem_filterNS.mpr ⟨hmem, hns⟩, rfl⟩
  have hne : recsOf (filterNS (assocSet t._memtable k v)) ≠ [] :=
    List.ne_nil_of_mem hrec
  have hfind := find_item_in_segment_spec t._sstable_block_size
    (recsOf (filterNS (assocSet t._memtable k v))) k
    (recsOf_filterNS_wf _ hwf) (recsOf_filterNS_sorted _ hsorted) hne
  rcases List.append_of_mem hrec with ⟨s1, s2, hsplit⟩
  have hpre_ne : ∀ x ∈ s1, x.key ≠ k := by
    intro x hx he
    have hb := (sorted_split_bounds (recsOf_filterNS_sorted _ hsorted)
      hsplit).1 x hx
    rw [he] at hb
    simp [keyLt_irrefl] at hb
  have hsa : segAnswerAux k 0 (recsOf (filterNS (assocSet t._memtable k v))) =
      some (v, 0 + recsSize s1) := by
    rw [hsplit, segAnswerAux_split k s1 _ s2 0 rfl hpre_ne]
    rfl
  show LSMTree.get _ _ = _
  simp only [LSMTree.get, LSMTree.put, LSMTree.flush_memtable]
  rw [if_neg (by simp [assocGet])]
  simp only [assocGet, pyOr, hpriv]
  rw [write_dict_spec t._sstable_block_size _ (entries_pairwise_ne hsorted)]
  rw [List.reverse_append]
  simp only [List.reverse_cons, List.reverse_nil, List.nil_append,
    List.singleton_append]
  rw [LSMTree.get_from_segments, hfind, hsa]

/-- Claim C5 (witness): the round trip at each of the three value kinds. -/
theorem C5_witness :
    ((initialState.put [107] (.int 5)).flush_memtable).get [107] =
      .ok (some (.int 5)) ∧
    ((initialState.put [107]
        (.float 4614256656552045848)).flush_memtable).get [107] =
      .ok (some (.float 4614256656552045848)) ∧
    ((initialState.put [107] (.str [104, 105])).flush_memtable).get [107] =
      .ok (some (.str [104, 105])) :=
  ⟨C5_thm initialState [107] (.int 5) List.chain'_nil (by decide) (by decide)
     (by decide) (by decide) (by decide),
   C5_thm initialState [107] (.float 4614256656552045848) List.chain'_nil
     (by decide) (by decide) (by decide) (by decide) (by decide),
   C5_thm initialState [107] (.str [104, 105]) List.chain'_nil (by decide)
     (by decide) (by decide) (by decide) (by decide)⟩

/-- Claim C6 (code bug): with two segments whose newest record for a key has
been tombstoned in place by `delete`, `get` before compaction returns the
older segment's superseded value (the tombstone does not shadow), while
after compaction - which does honour the tombstone and leaves exactly one
segment - the same `get` returns absent.  The claim promises identical
`get` results before and after. -/
theorem C6_compaction_changes_get_eval :
    (let t := ((((((initialState.put [97] (.int 1)).flush_memtable).put [97]
        (.int 2)).put [98] (.int 3)).flush_memtable).delete [97]).2;
     t.get [97] = .ok (some (.int 1)) ∧
     t.merge_and_compact.2._data_segments.length = 1 ∧
     t.merge_and_compact.2.get [97] = .ok none) := by
  decide

/-- Claim C7 (counterexample): after flushing a memtable that held only a
tombstone, the engine has a segment with an empty sparse index; `delete` of
an absent key then fails with `IndexError` from the block-range computation,
not with the claimed `not_found`, even though the key is absent from the
memtable and no segment has a live record for it. -/
theorem C7_cx :
    (let t := (((initialState.put [97] (.int 1)).delete [97]).2).flush_memtable;
     t._data_segments = [([], [])] ∧
     assocContains t._memtable [98] = false ∧
     segHasLive ([], []) [98] = false ∧
     (t.delete [98]).1 = some .indexError ∧
     some Err.indexError ≠ some Err.keyNotFound) := by
  decide

/-- Claim C7 (amended): provided every data segment is well formed and
nonempty (writer output for a sorted supported record list, possibly with
in-place tombstone marks; in particular no segment flushed from an
all-tombstone memtable), `delete(k)` fails with `not_found` if and only if
`k` is absent from the live memtable and no segment contains a
non-tombstoned record for `k`; and whenever `delete` fails, the engine
state is unchanged. -/
theorem C7_thm (t : LSMTree) (k : Key)
    (hsegs : ∀ seg ∈ t._data_segments,
      WFSegment t._sstable_block_size seg) :
    ((t.delete k).1 = some .keyNotFound ↔
      (assocContains t._memtable k = false ∧
       ∀ seg ∈ t._data_segments, segHasLive seg k = false)) ∧
    (∀ e, (t.delete k).1 = some e → (t.delete k).2 = t) := by
  refine ⟨?_, fun e he => delete_fail_unchanged t k e he⟩
  rw [LSMTree.delete]
  by_cases hc : assocContains t._memtable k = true
  · rw [if_pos hc]
    constructor
    · intro h
      cases h
    · rintro ⟨h1, _⟩
      rw [h1] at hc
      cases hc
  · rw [if_neg hc]
    have hcf : assocContains t._memtable k = false := by
      cases hx : assocContains t._memtable k
      · rfl
      · exact absurd hx hc
    rcases delete_scan_wf t._sstable_block_size k t._data_segments.reverse
      (by
        intro seg hseg
        exact hsegs seg (List.mem_reverse.mp hseg)) with ⟨⟨res, hres⟩, hiff⟩
    rcases res with _ | r2
    · rw [hres]
      constructor
      · intro _
        refine ⟨hcf, fun seg hseg => ?_⟩
        exact hiff.mp hres seg (List.mem_reverse.mpr hseg)
      · intro _
        rfl
    · rw [hres]
      constructor
      · intro h
        cases h
      · rintro ⟨_, hall⟩
        have h0 := hiff.mpr (fun seg hseg =>
          hall seg (List.mem_reverse.mp hseg))
        rw [hres] at h0
        simp at h0

/-- Claim C7 (witness): on an engine with one well-formed segment, deleting
an absent key fails with `not_found`. -/
theorem C7_witness :
    (((initialState.put [97] (.int 1)).flush_memtable).delete [98]).1 =
      some Err.keyNotFound :=
  ((C7_thm ((initialState.put [97] (.int 1)).flush_memtable) [98] (by
    have hseg_eq : ((initialState.put [97]
        (.int 1)).flush_memtable)._data_segments =
        [([0, 0, 0, 1, 97, 0, 105, 0, 0, 0, 1], [([97], 0)])] := by decide
    intro seg hseg
    rw [hseg_eq, List.mem_singleton] at hseg
    subst hseg
    exact ⟨[⟨[97], Value.int 1, false⟩], by decide,
      recsSorted_singleton _, by decide, by decide⟩)).1).mpr
    ⟨by decide, by
      have hseg_eq : ((initialState.put [97]
          (.int 1)).flush_memtable)._data_segments =
          [([0, 0, 0, 1, 97, 0, 105, 0, 0, 0, 1], [([97], 0)])] := by decide
      intro seg hseg
      rw [hseg_eq, List.mem_singleton] at hseg
      subst hseg
      decide⟩

/-- Claim C8: for every sorted mapping given to the segment writer, the
returned sparse index is exactly the first key of each greedily packed
block mapped to the byte offset at which that block's first record begins
(the first block at offset 0, each next block at the previous offset plus
the previous block's serialized size), and those blocks partition exactly
the non-tombstone records in order. -/
theorem C8_thm (bs : Nat) (es : List (Key × Value))
    (hs : EntriesSorted es) :
    (LSMTree.write_dict_to_data_segment bs es).2 =
      specIndexAux 0 (specBlocks bs (recsOf (filterNS es))) ∧
    (specBlocks bs (recsOf (filterNS es))).join = recsOf (filterNS es) := by
  constructor
  · rw [write_dict_spec bs es (entries_pairwise_ne hs)]
    exact recordsIndex_eq_specIndex bs (recsOf (filterNS es))
  · exact specBlocks_join bs (recsOf (filterNS es))

/-- Claim C8 (witness): two 11-byte records with a 12-byte block size split
into two blocks, indexed at offsets 0 and 11. -/
theorem C8_witness :
    (LSMTree.write_dict_to_data_segment 12
        [([97], Value.int 1), ([98], Value.int 2)]).2 =
      specIndexAux 0 (specBlocks 12
        (recsOf (filterNS [([97], Value.int 1), ([98], Value.int 2)]))) ∧
    (specBlocks 12
        (recsOf (filterNS [([97], Value.int 1), ([98], Value.int 2)]))).join =
      recsOf (filterNS [([97], Value.int 1), ([98], Value.int 2)]) :=
  C8_thm 12 [([97], Value.int 1), ([98], Value.int 2)]
    (entriesSorted_pair _ _ (by decide))

/-- Claim C9: flushing a memtable whose entries are all tombstones (with the
private being-flushed slot empty, as it always is - see the C10 theorem)
appends a segment with an empty sparse index, and every subsequent `get`
reaches it first and raises `IndexError` from the block-range computation
instead of returning absent. -/
theorem C9_thm (t : LSMTree) (k : Key)
    (hall : ∀ e ∈ t._memtable, e.2 = tombstoneSentinel)
    (hpriv : t._memtable_being_flushed = []) :
    (t.flush_memtable._data_segments.getLast?).map Prod.snd = some [] ∧
    t.flush_memtable.get k = .error .indexError := by
  have hw := write_dict_all_sentinel t._sstable_block_size t._memtable hall
  constructor
  · show ((t._data_segments ++
      [LSMTree.write_dict_to_data_segment t._sstable_block_size
        t._memtable]).getLast?).map Prod.snd = some []
    rw [hw, List.getLast?_concat]
    rfl
  · show LSMTree.get _ _ = _
    simp only [LSMTree.get, LSMTree.flush_memtable]
    rw [if_neg (by simp [assocGet]), hw]
    simp only [assocGet, hpriv, pyOr]
    rw [List.reverse_append]
    simp only [List.reverse_cons, List.reverse_nil, List.nil_append,
      List.singleton_append]
    rw [LSMTree.get_from_segments, find_item_empty_segment]

/-- Claim C9 (witness): put then delete leaves a single tombstone in the
memtable; flushing it and probing another key raises `IndexError`. -/
theorem C9_witness :
    ((((initialState.put [97] (.int 1)).delete [97]).2).flush_memtable._data_segments.getLast?).map
        Prod.snd = some [] ∧
    (((initialState.put [97] (.int 1)).delete [97]).2).flush_memtable.get [98] =
      .error .indexError :=
  C9_thm (((initialState.put [97] (.int 1)).delete [97]).2) [98] (by decide)
    (by decide)

/-- Claim C10: in every state reachable from construction by any sequence
of engine operations, the underscore-prefixed being-flushed slot that `get`
consults is empty: the flush path stores the rotated memtable under the
attribute without the leading underscore, so nothing is ever assigned to
the slot `get` reads. -/
theorem C10_thm (ops : List Op) :
    (runOps initialState ops)._memtable_being_flushed = [] := by
  have hgen : ∀ (l : List Op) (t : LSMTree),
      t._memtable_being_flushed = [] →
      (runOps t l)._memtable_being_flushed = [] := by
    intro l
    induction l with
    | nil => intro t ht; exact ht
    | cons op rest ih =>
      intro t ht
      rw [runOps, List.foldl_cons]
      apply ih
      cases op with
      | put k v => rw [show applyOp t (.put k v) = t.put k v from rfl,
          put_preserves_private_slot]; exact ht
      | del k => rw [show applyOp t (.del k) = (t.delete k).2 from rfl,
          delete_preserves_private_slot]; exact ht
      | flush => rw [show applyOp t .flush = t.flush_memtable from rfl,
          flush_preserves_private_slot]; exact ht
      | compact => rw [show applyOp t .compact = t.merge_and_compact.2
          from rfl, compact_preserves_private_slot]; exact ht
  exact hgen ops initialState rfl

/-- Claim C10 (witness): a concrete operation sequence. -/
theorem C10_witness :
    (runOps initialState [.put [97] (.int 1), .flush, .del [97],
      .compact])._memtable_being_flushed = [] :=
  C10_thm [.put [97] (.int 1), .flush, .del [97], .compact]
